import Mathlib

/-! Verification of go-fixedts, a fixed-timestep controller.

A shallow embedding of `fixedts.go` and `stats.go`.

* `float64` is modelled by `F64`: NaN, the two infinities and the finite values, the
  latter as exact rationals.  Comparisons and the special values follow IEEE 754;
  arithmetic on finite values is exact (rounding, overflow to infinity and the sign of
  zero are not modelled).
* `uint64` fields are natural numbers reduced modulo `2 ^ 64` at every update.
* `time.Time` is a count of nanoseconds since the zero instant, so that
  `time.Time{}` is `0` and `IsZero` is a comparison with `0`.
* The goroutine started by `NewWithConfig` is modelled by a machine that moves from one
  blocking point of `run` to the next; what the `select` statements receive and what
  `time.Now()` returns is the input of the machine.
-/

namespace Fixedts

/-! ## float64 -/

/-- Values of Go's `float64`. -/
inductive F64 where
  | nan : F64
  | ninf : F64
  | pinf : F64
  | fin (q : ℚ) : F64
  deriving DecidableEq

namespace F64

/-- Float addition `x + y`. -/
def add : F64 → F64 → F64
  | nan, _ => nan
  | _, nan => nan
  | pinf, ninf => nan
  | ninf, pinf => nan
  | pinf, _ => pinf
  | _, pinf => pinf
  | ninf, _ => ninf
  | _, ninf => ninf
  | fin a, fin b => fin (a + b)

/-- Sign-carrying infinity: the result of multiplying an infinity by a finite factor. -/
def infTimes (positive : Bool) (q : ℚ) : F64 :=
  if q = 0 then nan
  else if (0 < q) = positive then pinf else ninf

/-- Float multiplication `x * y`. -/
def mul : F64 → F64 → F64
  | nan, _ => nan
  | _, nan => nan
  | pinf, pinf => pinf
  | ninf, ninf => pinf
  | pinf, ninf => ninf
  | ninf, pinf => ninf
  | pinf, fin b => infTimes true b
  | ninf, fin b => infTimes false b
  | fin a, pinf => infTimes true a
  | fin a, ninf => infTimes false a
  | fin a, fin b => fin (a * b)

/-- Float division `x / y`; a zero divisor is taken as positive zero. -/
def div : F64 → F64 → F64
  | nan, _ => nan
  | _, nan => nan
  | pinf, pinf => nan
  | pinf, ninf => nan
  | ninf, pinf => nan
  | ninf, ninf => nan
  | pinf, fin b => if 0 ≤ b then pinf else ninf
  | ninf, fin b => if 0 ≤ b then ninf else pinf
  | fin _, pinf => fin 0
  | fin _, ninf => fin 0
  | fin a, fin b =>
    if b = 0 then (if a = 0 then nan else if 0 < a then pinf else ninf)
    else fin (a / b)

/-- The function `math.Abs`. -/
def abs : F64 → F64
  | nan => nan
  | ninf => pinf
  | pinf => pinf
  | fin a => fin |a|

/-- Float comparison `x < y` (false whenever an operand is NaN). -/
def lt : F64 → F64 → Bool
  | nan, _ => false
  | _, nan => false
  | pinf, _ => false
  | _, ninf => false
  | ninf, _ => true
  | fin _, pinf => true
  | fin a, fin b => decide (a < b)

/-- Float comparison `x <= y` (false whenever an operand is NaN). -/
def le : F64 → F64 → Bool
  | nan, _ => false
  | _, nan => false
  | ninf, _ => true
  | _, pinf => true
  | pinf, _ => false
  | fin _, ninf => false
  | fin a, fin b => decide (a ≤ b)

/-- Float comparison `x > y`. -/
def gt (x y : F64) : Bool := lt y x

/-- Float comparison `x >= y`. -/
def ge (x y : F64) : Bool := le y x

/-- Conversion `float64(n)` of an unsigned integer. -/
def ofNat (n : Nat) : F64 := fin n

/-- Conversion `float64(n)` of a signed integer. -/
def ofInt (n : Int) : F64 := fin n

/-- Conversion of a float to `int64`: truncation toward zero.  Go leaves the result
implementation-dependent when the value does not fit; the minimum `int64` is taken
here, as on amd64. -/
def toInt64 : F64 → Int
  | fin q =>
    let t : Int := if 0 ≤ q then Rat.floor q else Rat.ceil q
    if -(2 : Int) ^ 63 ≤ t ∧ t < (2 : Int) ^ 63 then t else -(2 : Int) ^ 63
  | _ => -(2 : Int) ^ 63

end F64

/-! ## time -/

/-- Instants (`time.Time`), in nanoseconds since the zero instant `time.Time{}`. -/
abbrev Time := Int

/-- Durations (`time.Duration`), an `int64` count of nanoseconds. -/
abbrev Duration := Int

/-- The constant `time.Second`. -/
def Second : Duration := 1000000000

/-- The method `Time.IsZero`. -/
def Time.IsZero (t : Time) : Bool := t == 0

/-- The method `Time.Sub`: the difference `t - u`, saturated to the range of `int64`. -/
def Time.Sub (t u : Time) : Duration :=
  if t - u < -(2 : Int) ^ 63 then -(2 : Int) ^ 63
  else if (2 : Int) ^ 63 - 1 < t - u then (2 : Int) ^ 63 - 1
  else t - u

/-- The method `Duration.Seconds`. -/
def Duration.Seconds (d : Duration) : F64 := F64.fin ((d : ℚ) / 1000000000)

/-! ## stats.go -/

/-- Go struct `Stats`. -/
structure Stats where
  From : Time
  Steps : Nat
  TimeAccum : F64
  StepRate : F64
  StepAverage : F64
  GapAccum : F64
  GapAbsAccum : F64
  GapAbsAverage : F64
  GapMax : F64
  GapMin : F64
  deriving DecidableEq

/-- Method `newStats`; of its receiver it reads only the field `Now`. -/
def newStats (Now : Time) : Stats :=
  { From := Now, Steps := 0, TimeAccum := F64.fin 0, StepRate := F64.fin 0,
    StepAverage := F64.fin 0, GapAccum := F64.fin 0, GapAbsAccum := F64.fin 0,
    GapAbsAverage := F64.fin 0, GapMax := F64.ninf, GapMin := F64.pinf }

/-- Method `updateStats`; of its receiver it reads only the fields `Delta` and `Gap`. -/
def updateStats (Delta Gap : F64) (stats : Stats) : Stats :=
  let stats := { stats with Steps := (stats.Steps + 1) % 2 ^ 64 }
  let stats := { stats with TimeAccum := F64.add stats.TimeAccum Delta }
  let stats := { stats with GapAccum := F64.add stats.GapAccum Gap }
  let stats := { stats with GapAbsAccum := F64.add stats.GapAbsAccum (F64.abs Gap) }
  let stats := { stats with StepRate := F64.div (F64.ofNat stats.Steps) stats.TimeAccum }
  let stats := { stats with StepAverage := F64.div stats.TimeAccum (F64.ofNat stats.Steps) }
  let stats := if F64.gt Gap stats.GapMax then { stats with GapMax := Gap } else stats
  let stats := if F64.lt Gap stats.GapMin then { stats with GapMin := Gap } else stats
  { stats with GapAbsAverage := F64.div stats.GapAbsAccum (F64.ofNat stats.Steps) }

/-! ## fixedts.go: configuration -/

/-- The constant `MinimumTimestep`. -/
def MinimumTimestep : F64 := F64.fin (1 / 1000000000)

/-- The constant `DefaultAcceptableErrorRate`. -/
def DefaultAcceptableErrorRate : F64 := F64.fin (1 / 1000)

/-- A `context.Context`: the background context, or a cancellable one. -/
inductive Context where
  | background : Context
  | cancellable (id : Nat) : Context
  deriving DecidableEq

/-- Go struct `FixedTimestepConfig`.  `Context` is `none` for a nil interface and
`WaitGroup` is `none` for a nil pointer; a wait group is named by a number. -/
structure FixedTimestepConfig where
  Paused : Bool
  DesiredTimestep : F64
  AcceptableError : F64
  StepsUntilPause : Nat
  Context : Option Context
  WaitGroup : Option Nat
  deriving DecidableEq

/-- Method `defaults`. -/
def defaults (config : FixedTimestepConfig) : FixedTimestepConfig :=
  let config :=
    if config.Context = none then { config with Context := some Context.background }
    else config
  let config :=
    if F64.lt config.DesiredTimestep MinimumTimestep then
      { config with DesiredTimestep := MinimumTimestep }
    else config
  if F64.le config.AcceptableError (F64.fin 0) then
    { config with
      AcceptableError := F64.mul DefaultAcceptableErrorRate config.DesiredTimestep }
  else config

/-! ## fixedts.go: the controller -/

/-- A `time.Ticker`: its period, and whether `Stop` has been called on it. -/
structure Ticker where
  period : Duration
  stopped : Bool
  deriving DecidableEq

/-- Go struct `FixedTimestep`, without `function` (a parameter of the loop below, as it
never changes) and `controlCh` (an unbuffered channel, modelled by the inputs of the
machine).  `CurrentStats` and `ticker` are `none` for a nil pointer. -/
structure FixedTimestep where
  StepsUntilPause : Nat
  Now : Time
  Step : Nat
  Delta : F64
  Gap : F64
  TotalStats : Stats
  CurrentStats : Option Stats
  Config : FixedTimestepConfig
  ticker : Option Ticker
  lastStepTime : Time
  deriving DecidableEq

/-- Go type `FixedTimestepFunc`.  A callback reads the controller it is given; what it
can do to the controller is call `Update`, and the result lists the configurations it
passes to `Update`, in order (empty when it does not call `Update`). -/
abbrev FixedTimestepFunc := FixedTimestep → List FixedTimestepConfig

/-- Where the goroutine running `run` is.  `pausedWait` is the `select` of the paused
state, `checkpoint` the `select` that follows a step, `stopped` the return of `run`,
`panicked` a panic of `time.NewTicker`, and `blocked` the send of `Update` executed by
the callback. -/
inductive Loc where
  | pausedWait : Loc
  | checkpoint : Loc
  | stopped : Loc
  | panicked : Loc
  | blocked : Loc
  deriving DecidableEq

/-- One callback invocation: the Playing phase it belongs to (1 for the first phase
entered), its position in that phase (1 for the first step), and the controller as the
callback reads it. -/
structure Call where
  phase : Nat
  index : Nat
  seen : FixedTimestep
  deriving DecidableEq

/-- The goroutine running `run`, with its history: `phase` counts the Playing phases
entered, `index` the steps run in the current phase, `calls` lists the callback
invocations and `done` the wait groups on which `Done` was called, both in order. -/
structure Machine where
  ts : FixedTimestep
  loc : Loc
  phase : Nat
  index : Nat
  calls : List Call
  done : List Nat
  deriving DecidableEq

/-- What a `select` of `run` receives.  A reconfiguration carries what the object passed
to `Update` holds when it is received; the loop writes to the object it has adopted
(`defaults`, and `Paused` at an automatic pause), so an object that is the active
configuration holds `ts.Config`. -/
inductive Stimulus where
  | cancel : Stimulus
  | reconfig (config : FixedTimestepConfig) : Stimulus
  | tick : Stimulus
  deriving DecidableEq

/-- An input of the machine: what the `select` receives, and what `time.Now()` returns
if a step runs next. -/
structure Input where
  stim : Stimulus
  now : Time
  deriving DecidableEq

/-- The call `ts.ticker.Stop()`. -/
def stopTicker (ts : FixedTimestep) : FixedTimestep :=
  { ts with ticker := ts.ticker.map (fun t => { t with stopped := true }) }

/-- The end of `run`, after `break RunLoop`. -/
def exitLoop (m : Machine) : Machine :=
  match m.ts.Config.WaitGroup with
  | some wg => { m with loc := Loc.stopped, done := m.done ++ [wg] }
  | none => { m with loc := Loc.stopped }

/-- The start of an iteration of the inner loop of `run`, from `ts.Now = time.Now()` to
the two calls of `updateStats`: the controller as the callback is about to read it. -/
def beginStep (ts : FixedTimestep) (now : Time) : FixedTimestep :=
  let ts := { ts with Now := now }
  if !Time.IsZero ts.lastStepTime then
    let ts := { ts with Delta := Duration.Seconds (Time.Sub ts.Now ts.lastStepTime) }
    let ts := { ts with Gap := ts.Delta }
    let ts := { ts with TotalStats := updateStats ts.Delta ts.Gap ts.TotalStats }
    { ts with CurrentStats := ts.CurrentStats.map (updateStats ts.Delta ts.Gap) }
  else ts

/-- The three assignments that follow the callback: `ts.Step++`, `ts.StepsUntilPause--`
and `ts.lastStepTime = ts.Now`. -/
def endStep (ts : FixedTimestep) : FixedTimestep :=
  let ts := { ts with Step := (ts.Step + 1) % 2 ^ 64 }
  let ts := { ts with StepsUntilPause := (ts.StepsUntilPause + (2 ^ 64 - 1)) % 2 ^ 64 }
  { ts with lastStepTime := ts.Now }

/-- One iteration of the inner loop of `run`, from `ts.Now = time.Now()` to the next
`select`.  A callback that calls `Update` sends on `controlCh`; the channel is unbuffered
and its only receivers are the two `select`s of `run`, which the same goroutine
executes, so the send never completes.  After an automatic pause `continue RunLoop`
finds `Paused` set and reaches the `select` of the paused state. -/
def playStep (function : FixedTimestepFunc) (m : Machine) (now : Time) : Machine :=
  let ts := beginStep m.ts now
  let m := { m with ts := ts, index := m.index + 1,
                    calls := m.calls ++ [Call.mk m.phase (m.index + 1) ts] }
  match function ts with
  | _ :: _ => { m with loc := Loc.blocked }
  | [] =>
    let ts := endStep ts
    if ts.Config.StepsUntilPause != 0 && ts.StepsUntilPause == 0 then
      let ts := { ts with Config := { ts.Config with Paused := true } }
      { m with ts := stopTicker ts, loc := Loc.pausedWait }
    else
      { m with ts := ts, loc := Loc.checkpoint }

/-- The Playing entry of `run`, followed by the first step of the phase.
`time.NewTicker` panics on a period that is not positive. -/
def enterPlaying (function : FixedTimestepFunc) (m : Machine) (now : Time) : Machine :=
  let ts := { m.ts with lastStepTime := 0 }
  let ts := { ts with StepsUntilPause := ts.Config.StepsUntilPause }
  let ts := { ts with CurrentStats := some (newStats ts.Now) }
  let d : Duration := F64.toInt64 (F64.mul ts.Config.DesiredTimestep (F64.ofInt Second))
  let m := { m with ts := ts, phase := m.phase + 1, index := 0 }
  if d ≤ 0 then { m with loc := Loc.panicked }
  else playStep function { m with ts := { ts with ticker := some { period := d, stopped := false } } } now

/-- The top of `RunLoop`: wait in the paused state, or enter the playing state. -/
def runLoop (function : FixedTimestepFunc) (m : Machine) (now : Time) : Machine :=
  if m.ts.Config.Paused then { m with loc := Loc.pausedWait }
  else enterPlaying function m now

/-- The machine consumes one input.  In the paused state the `select` has no case for
the ticker, so a tick is not received there; after `run` has returned, panicked or
blocked nothing is received. -/
def step (function : FixedTimestepFunc) (m : Machine) (i : Input) : Machine :=
  match m.loc with
  | Loc.pausedWait =>
    match i.stim with
    | Stimulus.cancel => exitLoop m
    | Stimulus.reconfig config =>
      runLoop function { m with ts := { m.ts with Config := defaults config } } i.now
    | Stimulus.tick => m
  | Loc.checkpoint =>
    match i.stim with
    | Stimulus.cancel => exitLoop { m with ts := stopTicker m.ts }
    | Stimulus.reconfig config =>
      runLoop function { m with ts := stopTicker { m.ts with Config := defaults config } } i.now
    | Stimulus.tick => playStep function m i.now
  | _ => m

/-- The machine consumes a sequence of inputs. -/
def run (function : FixedTimestepFunc) (m : Machine) (inputs : List Input) : Machine :=
  inputs.foldl (step function) m

/-- The controller built by `NewWithConfig` from a configuration already defaulted, before
`go ts.run()`; every field the composite literal does not name has its zero value. -/
def created (config : FixedTimestepConfig) : Machine :=
  let ts : FixedTimestep :=
    { StepsUntilPause := config.StepsUntilPause, Now := 0, Step := 0,
      Delta := F64.fin 0, Gap := F64.fin 0, TotalStats := newStats 0,
      CurrentStats := none, Config := config, ticker := none, lastStepTime := 0 }
  { ts := ts, loc := Loc.pausedWait, phase := 0, index := 0, calls := [], done := [] }

/-- Function `NewWithConfig`, up to the first blocking point of the goroutine it starts;
`now` is what `time.Now()` returns if the first step runs at once. -/
def NewWithConfig (config : FixedTimestepConfig) (function : FixedTimestepFunc)
    (now : Time) : Machine :=
  let config := defaults config
  runLoop function (created config) now

/-- Function `New`. -/
def New (desiredTimestep : F64) (function : FixedTimestepFunc) (now : Time) : Machine :=
  NewWithConfig
    { Paused := false, DesiredTimestep := desiredTimestep, AcceptableError := F64.fin 0,
      StepsUntilPause := 0, Context := none, WaitGroup := none } function now

/-! ## Sample inputs -/

/-- A callback that never calls `Update`. -/
def quiet : FixedTimestepFunc := fun _ => []

/-- A playing configuration at 100 Hz without step budget, with a cancellable context
and the given wait group. -/
def playConfig (wg : Option Nat) : FixedTimestepConfig :=
  { Paused := false, DesiredTimestep := F64.fin (1 / 100), AcceptableError := F64.fin 0,
    StepsUntilPause := 0, Context := some (Context.cancellable 1), WaitGroup := wg }

/-- A playing configuration at 100 Hz with a budget of `n` steps. -/
def budgetConfig (n : Nat) : FixedTimestepConfig :=
  { Paused := false, DesiredTimestep := F64.fin (1 / 100), AcceptableError := F64.fin 0,
    StepsUntilPause := n, Context := some (Context.cancellable 1), WaitGroup := none }

/-- Ticks received one after the other, with the readings of the clock at the steps
they start. -/
def ticks (nows : List Time) : List Input :=
  nows.map (fun t => Input.mk Stimulus.tick t)

/-- The machine at the end of the Playing entry of `run` when the ticker could be armed:
the per-phase state is reset, the ticker runs, and no step of the phase has run yet. -/
def phaseEntry (m : Machine) : Machine :=
  { m with
    ts := { m.ts with
      lastStepTime := 0
      StepsUntilPause := m.ts.Config.StepsUntilPause
      CurrentStats := some (newStats m.ts.Now)
      ticker := some (Ticker.mk
        (F64.toInt64 (F64.mul m.ts.Config.DesiredTimestep (F64.ofInt Second))) false) }
    phase := m.phase + 1
    index := 0 }

/-- A paused configuration at 100 Hz. -/
def pausedConfig : FixedTimestepConfig :=
  { Paused := true, DesiredTimestep := F64.fin (1 / 100), AcceptableError := F64.fin 0,
    StepsUntilPause := 0, Context := some (Context.cancellable 1), WaitGroup := none }

/-- A callback that calls `Update` with a paused configuration on its second step
(the step that reads `Step = 1`), and does nothing on the other steps. -/
def pausingCallback : FixedTimestepFunc :=
  fun ts => if ts.Step = 1 then [pausedConfig] else []

/-! ## Predicates and invariants used in the statements -/

/-- A configuration whose `DesiredTimestep` is NaN. -/
def nanTimestepConfig : FixedTimestepConfig :=
  { Paused := false, DesiredTimestep := F64.nan, AcceptableError := F64.fin 0,
    StepsUntilPause := 0, Context := none, WaitGroup := none }

/-- A configuration whose `AcceptableError` is NaN. -/
def nanErrorConfig : FixedTimestepConfig :=
  { Paused := false, DesiredTimestep := F64.fin 1, AcceptableError := F64.nan,
    StepsUntilPause := 0, Context := none, WaitGroup := none }

/-- No ticker is running: none was created yet, or the last one was stopped. -/
def tickerIdle (ts : FixedTimestep) : Prop :=
  ∀ t, ts.ticker = some t → t.stopped = true

/-- A ticker is running, with a positive period. -/
def tickerArmed (ts : FixedTimestep) : Prop :=
  ∃ t, ts.ticker = some t ∧ t.stopped = false ∧ 0 < t.period

/-- What holds of the history whatever the goroutine is doing: the `k`-th callback
invocation read `Step = k`, and `Step` counts the invocations. -/
structure History (m : Machine) : Prop where
  seenStep : ∀ k c, m.calls[k]? = some c → c.seen.Step = k % 2 ^ 64
  stepCount : m.ts.Step = m.calls.length % 2 ^ 64
  notDone : m.done = []

/-- The invariant of the machine at its blocking points. -/
structure Inv (m : Machine) : Prop where
  seenStep : ∀ k c, m.calls[k]? = some c → c.seen.Step = k % 2 ^ 64
  stepCount : m.loc ≠ Loc.blocked → m.ts.Step = m.calls.length % 2 ^ 64
  doneRunning : m.loc ≠ Loc.stopped → m.done = []
  doneStopped : m.loc = Loc.stopped → m.done = m.ts.Config.WaitGroup.toList
  paused : m.loc = Loc.pausedWait → m.ts.Config.Paused = true ∧ tickerIdle m.ts
  stoppedIdle : m.loc = Loc.stopped → tickerIdle m.ts
  armed : m.loc = Loc.checkpoint → tickerArmed m.ts

/-- The budget left before a step, for a configuration with a budget: together with the
steps already run in the phase it makes up the configured budget, and it is not used up. -/
def BudgetLeft (m : Machine) : Prop :=
  0 < m.ts.Config.StepsUntilPause → m.ts.Config.StepsUntilPause < 2 ^ 64 →
    m.ts.StepsUntilPause + m.index = m.ts.Config.StepsUntilPause ∧ 0 < m.ts.StepsUntilPause

/-- What a callback invocation reads in `StepsUntilPause`, for a configuration with a
budget `N`: the `i`-th invocation of a phase reads `N - i + 1`, which is positive. -/
def BudgetSeen (c : Call) : Prop :=
  0 < c.seen.Config.StepsUntilPause → c.seen.Config.StepsUntilPause < 2 ^ 64 →
    c.seen.StepsUntilPause + c.index = c.seen.Config.StepsUntilPause + 1 ∧
    0 < c.seen.StepsUntilPause ∧ 1 ≤ c.index

/-- The invariant of the step budget. -/
structure BudgetInv (m : Machine) : Prop where
  seen : ∀ c ∈ m.calls, BudgetSeen c
  left : m.loc = Loc.checkpoint → BudgetLeft m

/-- The number of callback invocations that were not the first of their phase. -/
def laterSteps (m : Machine) : Nat :=
  (m.calls.filter (fun c => decide (c.index ≠ 1))).length

/-- The invariant of the step count of `TotalStats`. -/
structure StatsInv (m : Machine) : Prop where
  total : m.ts.TotalStats.Steps = laterSteps m % 2 ^ 64
  later : m.loc = Loc.checkpoint → m.ts.lastStepTime ≠ 0 ∧ m.index ≠ 0

/-- Observations folded into an accumulator one after the other by `updateStats`, each a
pair of the `Delta` and `Gap` of a step. -/
def foldStats (obs : List (F64 × F64)) (stats : Stats) : Stats :=
  obs.foldl (fun s o => updateStats o.1 o.2 s) stats

/-- Finite observations, as floats. -/
def finiteObs (obs : List (ℚ × ℚ)) : List (F64 × F64) :=
  obs.map (fun o => (F64.fin o.1, F64.fin o.2))

/-- What an accumulator holds after the finite observations `obs` were folded into a fresh
one: the count modulo `2 ^ 64`, the three sums, the extrema (the initial infinities while
nothing was folded, then the largest and the smallest gap), and the three quotients as
last recomputed. -/
structure Folded (obs : List (ℚ × ℚ)) (s : Stats) : Prop where
  steps : s.Steps = obs.length % 2 ^ 64
  time : s.TimeAccum = F64.fin (obs.map Prod.fst).sum
  gap : s.GapAccum = F64.fin (obs.map Prod.snd).sum
  gapAbs : s.GapAbsAccum = F64.fin (obs.map (fun o => |o.2|)).sum
  fresh : obs = [] → s.GapMax = F64.ninf ∧ s.GapMin = F64.pinf
  extrema : obs ≠ [] → ∃ gmax gmin : ℚ,
    s.GapMax = F64.fin gmax ∧ s.GapMin = F64.fin gmin ∧
    gmax ∈ obs.map Prod.snd ∧ gmin ∈ obs.map Prod.snd ∧
    ∀ g ∈ obs.map Prod.snd, gmin ≤ g ∧ g ≤ gmax
  quotients : obs ≠ [] →
    s.StepRate = F64.div (F64.ofNat s.Steps) s.TimeAccum ∧
    s.StepAverage = F64.div s.TimeAccum (F64.ofNat s.Steps) ∧
    s.GapAbsAverage = F64.div s.GapAbsAccum (F64.ofNat s.Steps)

/-- A float has a truncation toward zero that fits `int64`: it is finite and its integer
part lies between `-2 ^ 63` and `2 ^ 63 - 1`. -/
def F64.fitsInt64 (x : F64) : Prop :=
  ∃ q : ℚ, x = F64.fin q ∧
    -(2 : Int) ^ 63 ≤ (if 0 ≤ q then Rat.floor q else Rat.ceil q) ∧
    (if 0 ≤ q then Rat.floor q else Rat.ceil q) < (2 : Int) ^ 63

/-- The period the Playing entry of `run` passes to `time.NewTicker` for a configuration,
as a float, before its conversion to `time.Duration`. -/
def periodSeconds (config : FixedTimestepConfig) : F64 :=
  F64.mul config.DesiredTimestep (F64.ofInt Second)

/-- The invariant of the active configuration and of the ticker: the configuration is
one that `defaults` leaves as it is, every ticker created has a period of at least a
nanosecond, and `time.NewTicker` panicked only on a period that does not fit `int64`. -/
structure ConfigInv (m : Machine) : Prop where
  fixed : defaults m.ts.Config = m.ts.Config
  period : ∀ t, m.ts.ticker = some t → 1 ≤ t.period
  panicked : m.loc = Loc.panicked → ¬ F64.fitsInt64 (periodSeconds m.ts.Config)

/-- In a controller `Gap` is `Delta`, and in both accumulators the sum of the gaps is
the sum of the deltas. -/
def GapIsDelta (ts : FixedTimestep) : Prop :=
  ts.Gap = ts.Delta ∧ ts.TotalStats.GapAccum = ts.TotalStats.TimeAccum ∧
    ∀ s, ts.CurrentStats = some s → s.GapAccum = s.TimeAccum

/-- The invariant of the per-phase state: `Gap` is `Delta` in the controller and in what
every callback invocation read; the first invocation of a phase read a fresh
`CurrentStats`; and a phase in which no step has run yet has no previous step time and a
fresh `CurrentStats`. -/
structure PhaseInv (m : Machine) : Prop where
  gap : GapIsDelta m.ts
  seenGap : ∀ c ∈ m.calls, GapIsDelta c.seen
  seenFresh : ∀ c ∈ m.calls, c.index = 1 → ∃ t, c.seen.CurrentStats = some (newStats t)
  started : m.loc = Loc.checkpoint → m.index ≠ 0

/-- The number of callback invocations that were the first of their phase, that is the
number of Playing phases in which at least one step has run. -/
def firstSteps (m : Machine) : Nat :=
  (m.calls.filter (fun c => decide (c.index = 1))).length

/-- The invariant of the step count of `CurrentStats`, for a clock that never reads the
zero instant: the `k`-th callback invocation is at most the `(k + 1)`-th of its phase, the
`i`-th invocation of a phase read a `CurrentStats` with `i - 1` steps, and at the
checkpoint after the `i`-th step of a phase `CurrentStats` holds `i - 1` steps. -/
structure CurrentInv (m : Machine) : Prop where
  seen : ∀ k c, m.calls[k]? = some c → 1 ≤ c.index ∧ c.index ≤ k + 1 ∧
    ∃ s, c.seen.CurrentStats = some s ∧ s.Steps = (c.index - 1) % 2 ^ 64
  index : m.index ≤ m.calls.length
  later : m.loc = Loc.checkpoint → m.ts.lastStepTime ≠ 0 ∧ m.index ≠ 0 ∧
    ∃ s, m.ts.CurrentStats = some s ∧ s.Steps = (m.index - 1) % 2 ^ 64

/-! ## Defaulting of a configuration -/

theorem F64.lt_fin (a b : ℚ) : F64.lt (F64.fin a) (F64.fin b) = true ↔ a < b := by
  simp [F64.lt]

theorem F64.le_fin (a b : ℚ) : F64.le (F64.fin a) (F64.fin b) = true ↔ a ≤ b := by
  simp [F64.le]

theorem lt_MinimumTimestep (q : ℚ) :
    F64.lt (F64.fin q) MinimumTimestep = true ↔ q < 1 / 1000000000 :=
  F64.lt_fin q _

theorem MinimumTimestep_le (q : ℚ) :
    F64.le MinimumTimestep (F64.fin q) = true ↔ 1 / 1000000000 ≤ q :=
  F64.le_fin _ q

theorem defaults_DesiredTimestep (c : FixedTimestepConfig) :
    (defaults c).DesiredTimestep =
      if F64.lt c.DesiredTimestep MinimumTimestep then MinimumTimestep
      else c.DesiredTimestep := by
  by_cases h1 : c.Context = none
    <;> by_cases h2 : F64.lt c.DesiredTimestep MinimumTimestep = true
    <;> by_cases h3 : F64.le c.AcceptableError (F64.fin 0) = true
    <;> simp [defaults, h1, h2, h3]

theorem defaults_AcceptableError (c : FixedTimestepConfig) :
    (defaults c).AcceptableError =
      if F64.le c.AcceptableError (F64.fin 0) then
        F64.mul DefaultAcceptableErrorRate (defaults c).DesiredTimestep
      else c.AcceptableError := by
  rw [defaults_DesiredTimestep]
  by_cases h1 : c.Context = none
    <;> by_cases h2 : F64.lt c.DesiredTimestep MinimumTimestep = true
    <;> by_cases h3 : F64.le c.AcceptableError (F64.fin 0) = true
    <;> simp [defaults, h1, h2, h3]

theorem defaults_Paused (c : FixedTimestepConfig) : (defaults c).Paused = c.Paused := by
  by_cases h1 : c.Context = none
    <;> by_cases h2 : F64.lt c.DesiredTimestep MinimumTimestep = true
    <;> by_cases h3 : F64.le c.AcceptableError (F64.fin 0) = true
    <;> simp [defaults, h1, h2, h3]

theorem defaults_StepsUntilPause (c : FixedTimestepConfig) :
    (defaults c).StepsUntilPause = c.StepsUntilPause := by
  by_cases h1 : c.Context = none
    <;> by_cases h2 : F64.lt c.DesiredTimestep MinimumTimestep = true
    <;> by_cases h3 : F64.le c.AcceptableError (F64.fin 0) = true
    <;> simp [defaults, h1, h2, h3]

theorem defaults_WaitGroup (c : FixedTimestepConfig) :
    (defaults c).WaitGroup = c.WaitGroup := by
  by_cases h1 : c.Context = none
    <;> by_cases h2 : F64.lt c.DesiredTimestep MinimumTimestep = true
    <;> by_cases h3 : F64.le c.AcceptableError (F64.fin 0) = true
    <;> simp [defaults, h1, h2, h3]

theorem defaults_DesiredTimestep_ge (c : FixedTimestepConfig)
    (hn : c.DesiredTimestep ≠ F64.nan) :
    F64.le MinimumTimestep (defaults c).DesiredTimestep = true := by
  rw [defaults_DesiredTimestep]
  by_cases hlt : F64.lt c.DesiredTimestep MinimumTimestep = true
  · rw [if_pos hlt]; decide!
  · rw [if_neg hlt]
    cases h : c.DesiredTimestep with
    | nan => exact absurd h hn
    | ninf => rw [h] at hlt; exact absurd rfl hlt
    | pinf => rfl
    | fin q =>
      rw [h, lt_MinimumTimestep] at hlt
      exact (MinimumTimestep_le q).mpr (le_of_not_lt hlt)

/-- C6, as stated, fails: a NaN `DesiredTimestep` is not smaller than `MinimumTimestep`,
so `defaults` leaves it, and the result is not `>= MinimumTimestep`. -/
theorem defaults_nan_timestep_not_clamped :
    (defaults nanTimestepConfig).DesiredTimestep = F64.nan ∧
    ¬ (F64.ge (defaults nanTimestepConfig).DesiredTimestep MinimumTimestep = true) := by
  decide!

/-- C6, amended: after `defaults` the `DesiredTimestep` is `MinimumTimestep` if the input
was smaller and the input otherwise; the result is `>= MinimumTimestep` whenever the
input is not NaN; and an input `<= 0` gives the same result as the input
`MinimumTimestep`. -/
theorem defaults_clamps_timestep (c : FixedTimestepConfig) :
    ((defaults c).DesiredTimestep =
      if F64.lt c.DesiredTimestep MinimumTimestep then MinimumTimestep
      else c.DesiredTimestep) ∧
    (c.DesiredTimestep ≠ F64.nan →
      F64.ge (defaults c).DesiredTimestep MinimumTimestep = true) ∧
    (F64.le c.DesiredTimestep (F64.fin 0) = true →
      (defaults c).DesiredTimestep =
        (defaults { c with DesiredTimestep := MinimumTimestep }).DesiredTimestep) := by
  refine ⟨defaults_DesiredTimestep c, defaults_DesiredTimestep_ge c, ?_⟩
  · intro hle
    rw [defaults_DesiredTimestep, defaults_DesiredTimestep]
    have hlt : F64.lt c.DesiredTimestep MinimumTimestep = true := by
      cases h : c.DesiredTimestep with
      | nan => rw [h] at hle; exact absurd hle (by decide)
      | ninf => rfl
      | pinf => rw [h] at hle; exact absurd hle (by decide)
      | fin q =>
        rw [h, F64.le_fin] at hle
        exact (lt_MinimumTimestep q).mpr (lt_of_le_of_lt hle (by norm_num))
    rw [if_pos hlt]
    have hmm : F64.lt MinimumTimestep MinimumTimestep = false := by decide!
    simp [hmm]

/-- Witness of C6: a negative `DesiredTimestep`. -/
theorem defaults_clamps_timestep_witness :
    (defaults { nanTimestepConfig with DesiredTimestep := F64.fin (-3) }).DesiredTimestep =
      MinimumTimestep ∧
    F64.ge (defaults { nanTimestepConfig with DesiredTimestep := F64.fin (-3) }).DesiredTimestep
      MinimumTimestep = true :=
  ⟨by decide!,
   (defaults_clamps_timestep { nanTimestepConfig with DesiredTimestep := F64.fin (-3) }).2.1
     (by decide)⟩

/-- C7, as stated, fails: a NaN `AcceptableError` is not positive, yet `defaults` leaves
it (the comparison `AcceptableError <= 0` is false), so the result is neither the default
nor strictly positive. -/
theorem defaults_nan_error_not_positive :
    (defaults nanErrorConfig).AcceptableError = F64.nan ∧
    (defaults nanErrorConfig).AcceptableError ≠
      F64.mul DefaultAcceptableErrorRate (defaults nanErrorConfig).DesiredTimestep ∧
    ¬ (F64.lt (F64.fin 0) (defaults nanErrorConfig).AcceptableError = true) := by
  decide!

theorem F64.le_zero_iff_not_pos (a : F64) (ha : a ≠ F64.nan) :
    F64.le a (F64.fin 0) = true ↔ ¬ (F64.lt (F64.fin 0) a = true) := by
  cases a with
  | nan => exact absurd rfl ha
  | ninf => simp [F64.le, F64.lt]
  | pinf => simp [F64.le, F64.lt]
  | fin q => rw [F64.le_fin, F64.lt_fin]; exact not_lt.symm

theorem default_error_pos (d : F64) (hd : F64.le MinimumTimestep d = true) :
    F64.lt (F64.fin 0) (F64.mul DefaultAcceptableErrorRate d) = true := by
  cases d with
  | nan => exact absurd hd (by decide)
  | ninf => exact absurd hd (by decide)
  | pinf => decide!
  | fin q =>
    rw [MinimumTimestep_le] at hd
    show F64.lt (F64.fin 0) (F64.fin (1 / 1000 * q)) = true
    rw [F64.lt_fin]
    have : (0 : ℚ) < q := lt_of_lt_of_le (by norm_num) hd
    positivity

/-- C7, amended: for a configuration whose `DesiredTimestep` and `AcceptableError` are
not NaN, after `defaults` the `AcceptableError` is the input if that was positive and
`DefaultAcceptableErrorRate` times the clamped `DesiredTimestep` otherwise, and it is
strictly positive. -/
theorem defaults_error_positive (c : FixedTimestepConfig)
    (hd : c.DesiredTimestep ≠ F64.nan) (he : c.AcceptableError ≠ F64.nan) :
    ((defaults c).AcceptableError =
      if F64.lt (F64.fin 0) c.AcceptableError then c.AcceptableError
      else F64.mul DefaultAcceptableErrorRate (defaults c).DesiredTimestep) ∧
    F64.lt (F64.fin 0) (defaults c).AcceptableError = true := by
  have hmin : F64.le MinimumTimestep (defaults c).DesiredTimestep = true :=
    defaults_DesiredTimestep_ge c hd
  have hpos := default_error_pos _ hmin
  rw [defaults_AcceptableError]
  by_cases h : F64.lt (F64.fin 0) c.AcceptableError = true
  · have h2 : ¬ (F64.le c.AcceptableError (F64.fin 0) = true) := fun hle =>
      (F64.le_zero_iff_not_pos _ he).mp hle h
    rw [if_neg h2, if_pos h]
    exact ⟨rfl, h⟩
  · have h2 : F64.le c.AcceptableError (F64.fin 0) = true :=
      (F64.le_zero_iff_not_pos _ he).mpr h
    rw [if_pos h2, if_neg h]
    exact ⟨rfl, hpos⟩

/-- Witness of C7: a zero `AcceptableError` with a negative `DesiredTimestep`. -/
theorem defaults_error_positive_witness :
    (defaults { nanErrorConfig with DesiredTimestep := F64.fin (-3),
                                    AcceptableError := F64.fin 0 }).AcceptableError =
      F64.fin (1 / 1000000000000) ∧
    F64.lt (F64.fin 0)
      (defaults { nanErrorConfig with DesiredTimestep := F64.fin (-3),
                                      AcceptableError := F64.fin 0 }).AcceptableError = true :=
  ⟨by decide!,
   (defaults_error_positive
      { nanErrorConfig with DesiredTimestep := F64.fin (-3), AcceptableError := F64.fin 0 }
      (by decide) (by decide)).2⟩

/-! ## The run loop: basic facts -/

theorem beginStep_Step (ts : FixedTimestep) (now : Time) :
    (beginStep ts now).Step = ts.Step := by
  by_cases h : ts.lastStepTime = 0 <;> simp [beginStep, Time.IsZero, h]

theorem beginStep_StepsUntilPause (ts : FixedTimestep) (now : Time) :
    (beginStep ts now).StepsUntilPause = ts.StepsUntilPause := by
  by_cases h : ts.lastStepTime = 0 <;> simp [beginStep, Time.IsZero, h]

theorem beginStep_Config (ts : FixedTimestep) (now : Time) :
    (beginStep ts now).Config = ts.Config := by
  by_cases h : ts.lastStepTime = 0 <;> simp [beginStep, Time.IsZero, h]

theorem beginStep_ticker (ts : FixedTimestep) (now : Time) :
    (beginStep ts now).ticker = ts.ticker := by
  by_cases h : ts.lastStepTime = 0 <;> simp [beginStep, Time.IsZero, h]

theorem beginStep_Now (ts : FixedTimestep) (now : Time) :
    (beginStep ts now).Now = now := by
  by_cases h : ts.lastStepTime = 0 <;> simp [beginStep, Time.IsZero, h]

theorem beginStep_lastStepTime (ts : FixedTimestep) (now : Time) :
    (beginStep ts now).lastStepTime = ts.lastStepTime := by
  by_cases h : ts.lastStepTime = 0 <;> simp [beginStep, Time.IsZero, h]

/-- On the first step of a phase (no previous step time) only `Now` changes. -/
theorem beginStep_first (ts : FixedTimestep) (now : Time) (h : ts.lastStepTime = 0) :
    beginStep ts now = { ts with Now := now } := by
  unfold beginStep; simp [Time.IsZero, h]

/-- On a later step of a phase the elapsed time is taken and folded into both stats. -/
theorem beginStep_later (ts : FixedTimestep) (now : Time) (h : ts.lastStepTime ≠ 0) :
    beginStep ts now =
      { ts with
        Now := now
        Delta := Duration.Seconds (Time.Sub now ts.lastStepTime)
        Gap := Duration.Seconds (Time.Sub now ts.lastStepTime)
        TotalStats :=
          updateStats (Duration.Seconds (Time.Sub now ts.lastStepTime))
            (Duration.Seconds (Time.Sub now ts.lastStepTime)) ts.TotalStats
        CurrentStats :=
          ts.CurrentStats.map
            (updateStats (Duration.Seconds (Time.Sub now ts.lastStepTime))
              (Duration.Seconds (Time.Sub now ts.lastStepTime))) } := by
  unfold beginStep; simp [Time.IsZero, h]

theorem playStep_calls (f : FixedTimestepFunc) (m : Machine) (now : Time) :
    (playStep f m now).calls =
      m.calls ++ [Call.mk m.phase (m.index + 1) (beginStep m.ts now)] := by
  unfold playStep; simp only []; split
  · rfl
  · split <;> rfl

theorem playStep_phase (f : FixedTimestepFunc) (m : Machine) (now : Time) :
    (playStep f m now).phase = m.phase := by
  unfold playStep; simp only []; split
  · rfl
  · split <;> rfl

theorem playStep_index (f : FixedTimestepFunc) (m : Machine) (now : Time) :
    (playStep f m now).index = m.index + 1 := by
  unfold playStep; simp only []; split
  · rfl
  · split <;> rfl

theorem playStep_done (f : FixedTimestepFunc) (m : Machine) (now : Time) :
    (playStep f m now).done = m.done := by
  unfold playStep; simp only []; split
  · rfl
  · split <;> rfl

theorem playStep_loc (f : FixedTimestepFunc) (m : Machine) (now : Time) :
    (playStep f m now).loc = Loc.blocked ∨ (playStep f m now).loc = Loc.pausedWait ∨
      (playStep f m now).loc = Loc.checkpoint := by
  unfold playStep; simp only []; split
  · exact Or.inl rfl
  · split
    · exact Or.inr (Or.inl rfl)
    · exact Or.inr (Or.inr rfl)

theorem getElem?_concat_cases {α : Type} (l : List α) (a b : α) (k : Nat)
    (h : (l ++ [a])[k]? = some b) : l[k]? = some b ∨ (k = l.length ∧ b = a) := by
  by_cases hk : k < l.length
  · left
    rw [List.getElem?_append_left hk] at h
    exact h
  · right
    have hk2 : l.length ≤ k := Nat.le_of_not_lt hk
    rw [List.getElem?_append_right hk2] at h
    by_cases h0 : k - l.length = 0
    · rw [h0] at h
      simp at h
      exact ⟨by omega, h.symm⟩
    · obtain ⟨j, hj⟩ := Nat.exists_eq_succ_of_ne_zero h0
      rw [hj] at h
      simp at h

/-! ## An invariant of the run loop -/

theorem tickerIdle_stopTicker (ts : FixedTimestep) : tickerIdle (stopTicker ts) := by
  intro t ht
  unfold stopTicker at ht
  cases h : ts.ticker with
  | none => simp [h] at ht
  | some u =>
    simp [h] at ht
    rw [← ht]

theorem playStep_Inv (f : FixedTimestepFunc) (m : Machine) (now : Time)
    (hm : History m) (ha : tickerArmed m.ts) : Inv (playStep f m now) := by
  have hseen : ∀ k c, (playStep f m now).calls[k]? = some c → c.seen.Step = k % 2 ^ 64 := by
    intro k c hk
    rw [playStep_calls] at hk
    rcases getElem?_concat_cases _ _ _ _ hk with h | ⟨h1, h2⟩
    · exact hm.seenStep k c h
    · rw [h2, h1]
      show (beginStep m.ts now).Step = _
      rw [beginStep_Step]
      exact hm.stepCount
  have hdone : (playStep f m now).done = [] := by rw [playStep_done]; exact hm.notDone
  have hloc := playStep_loc f m now
  refine ⟨hseen, ?_, fun _ => hdone, ?_, ?_, ?_, ?_⟩
  · intro hb
    unfold playStep at hb ⊢
    simp only [] at hb ⊢
    split
    · rename_i heq
      rw [heq] at hb
      exact absurd rfl hb
    · split <;>
        simp [endStep, stopTicker, beginStep_Step, hm.stepCount, Nat.add_mod]
  · intro hs
    rcases hloc with h | h | h <;> rw [h] at hs <;> cases hs
  · intro hp
    unfold playStep at hp ⊢
    simp only [] at hp ⊢
    split
    · rename_i heq
      rw [heq] at hp
      cases hp
    · rename_i heq
      rw [heq] at hp
      simp only [] at hp
      split
      · exact ⟨rfl, tickerIdle_stopTicker _⟩
      · rename_i hcond
        rw [if_neg hcond] at hp
        cases hp
  · intro hs
    rcases hloc with h | h | h <;> rw [h] at hs <;> cases hs
  · intro hc
    unfold playStep at hc ⊢
    simp only [] at hc ⊢
    split
    · rename_i heq
      rw [heq] at hc
      cases hc
    · rename_i heq
      rw [heq] at hc
      simp only [] at hc
      split
      · rename_i hcond
        rw [if_pos hcond] at hc
        cases hc
      · show tickerArmed (endStep (beginStep m.ts now))
        obtain ⟨t, ht, hts, htp⟩ := ha
        exact ⟨t, by simp [endStep, beginStep_ticker, ht], hts, htp⟩

theorem Inv_of_History (m : Machine) (hm : History m) (hloc : m.loc = Loc.panicked) :
    Inv m := by
  refine ⟨hm.seenStep, fun _ => hm.stepCount, fun _ => hm.notDone, ?_, ?_, ?_, ?_⟩ <;>
    intro h <;> rw [hloc] at h <;> cases h

theorem enterPlaying_Inv (f : FixedTimestepFunc) (m : Machine) (now : Time)
    (hm : History m) : Inv (enterPlaying f m now) := by
  unfold enterPlaying
  simp only []
  split
  · exact Inv_of_History _ ⟨hm.seenStep, hm.stepCount, hm.notDone⟩ rfl
  · rename_i hd
    exact playStep_Inv f _ now ⟨hm.seenStep, hm.stepCount, hm.notDone⟩
      ⟨_, rfl, rfl, lt_of_not_le hd⟩

theorem runLoop_Inv (f : FixedTimestepFunc) (m : Machine) (now : Time)
    (hm : History m) (hi : tickerIdle m.ts) : Inv (runLoop f m now) := by
  unfold runLoop
  split
  · rename_i hp
    refine ⟨hm.seenStep, fun _ => hm.stepCount, fun _ => hm.notDone, ?_, ?_, ?_, ?_⟩
    · intro h; cases h
    · intro _; exact ⟨hp, hi⟩
    · intro h; cases h
    · intro h; cases h
  · exact enterPlaying_Inv f m now hm

theorem exitLoop_loc (m : Machine) : (exitLoop m).loc = Loc.stopped := by
  unfold exitLoop; split <;> rfl

theorem exitLoop_calls (m : Machine) : (exitLoop m).calls = m.calls := by
  unfold exitLoop; split <;> rfl

theorem exitLoop_ts (m : Machine) : (exitLoop m).ts = m.ts := by
  unfold exitLoop; split <;> rfl

theorem exitLoop_done (m : Machine) :
    (exitLoop m).done = m.done ++ m.ts.Config.WaitGroup.toList := by
  unfold exitLoop; split <;> simp [*]

theorem exitLoop_Inv (m : Machine) (hm : History m) (hi : tickerIdle m.ts) :
    Inv (exitLoop m) := by
  have hl := exitLoop_loc m
  refine ⟨?_, ?_, ?_, ?_, ?_, ?_, ?_⟩
  · rw [exitLoop_calls]; exact hm.seenStep
  · intro _; rw [exitLoop_calls, exitLoop_ts]; exact hm.stepCount
  · intro h; exact absurd hl h
  · intro _; rw [exitLoop_done, exitLoop_ts, hm.notDone]; rfl
  · intro h; rw [hl] at h; cases h
  · intro _; rw [exitLoop_ts]; exact hi
  · intro h; rw [hl] at h; cases h

theorem step_Inv (f : FixedTimestepFunc) (m : Machine) (i : Input) (hm : Inv m) :
    Inv (step f m i) := by
  unfold step
  split
  · rename_i hl
    have hh : History m :=
      ⟨hm.seenStep, hm.stepCount (by rw [hl]; decide), hm.doneRunning (by rw [hl]; decide)⟩
    split
    · exact exitLoop_Inv m hh (hm.paused hl).2
    · exact runLoop_Inv f _ _ ⟨hh.seenStep, hh.stepCount, hh.notDone⟩ (hm.paused hl).2
    · exact hm
  · rename_i hl
    have hh : History m :=
      ⟨hm.seenStep, hm.stepCount (by rw [hl]; decide), hm.doneRunning (by rw [hl]; decide)⟩
    split
    · exact exitLoop_Inv _ ⟨hh.seenStep, hh.stepCount, hh.notDone⟩ (tickerIdle_stopTicker _)
    · exact runLoop_Inv f _ _ ⟨hh.seenStep, hh.stepCount, hh.notDone⟩
        (tickerIdle_stopTicker _)
    · exact playStep_Inv f m _ hh (hm.armed hl)
  · exact hm

theorem run_nil (f : FixedTimestepFunc) (m : Machine) : run f m [] = m := rfl

theorem run_cons (f : FixedTimestepFunc) (m : Machine) (i : Input) (ins : List Input) :
    run f m (i :: ins) = run f (step f m i) ins := rfl

theorem run_append (f : FixedTimestepFunc) (m : Machine) (xs ys : List Input) :
    run f m (xs ++ ys) = run f (run f m xs) ys := by
  unfold run; exact List.foldl_append _ _ _ _

theorem run_Inv (f : FixedTimestepFunc) (ins : List Input) :
    ∀ m : Machine, Inv m → Inv (run f m ins) := by
  induction ins with
  | nil => intro m hm; exact hm
  | cons i rest ih => intro m hm; rw [run_cons]; exact ih _ (step_Inv f m i hm)

theorem NewWithConfig_Inv (config : FixedTimestepConfig) (f : FixedTimestepFunc)
    (now : Time) : Inv (NewWithConfig config f now) := by
  unfold NewWithConfig
  refine runLoop_Inv f _ now ⟨?_, rfl, rfl⟩ ?_
  · intro k c h; simp [created] at h
  · intro t h; simp [created] at h

/-- Every state the controller reaches satisfies the invariant. -/
theorem reachable_Inv (config : FixedTimestepConfig) (f : FixedTimestepFunc) (now : Time)
    (ins : List Input) : Inv (run f (NewWithConfig config f now) ins) :=
  run_Inv f ins _ (NewWithConfig_Inv config f now)

/-- After `run` has returned nothing changes any more. -/
theorem run_stopped (f : FixedTimestepFunc) (ins : List Input) :
    ∀ m : Machine, m.loc = Loc.stopped → run f m ins = m := by
  induction ins with
  | nil => intro m _; rfl
  | cons i rest ih =>
    intro m hm
    have hs : step f m i = m := by unfold step; rw [hm]
    rw [run_cons, hs]
    exact ih m hm

/-! ## The step counter -/

/-- C5: in every run, the `Step` fields read by the callback invocations since
construction are 0, 1, 2, ... in this order (modulo `2 ^ 64`): the `k`-th invocation
reads `k`, whatever pauses, resumes, automatic pauses and reconfigurations happened. -/
theorem step_field_counts_invocations (config : FixedTimestepConfig)
    (f : FixedTimestepFunc) (now : Time) (ins : List Input) :
    (run f (NewWithConfig config f now) ins).calls.map (fun c => c.seen.Step) =
      (List.range (run f (NewWithConfig config f now) ins).calls.length).map
        (fun k => k % 2 ^ 64) := by
  have hinv := reachable_Inv config f now ins
  apply List.ext_getElem?
  intro k
  rw [List.getElem?_map, List.getElem?_map]
  cases hc : (run f (NewWithConfig config f now) ins).calls[k]? with
  | none =>
    have hk : (run f (NewWithConfig config f now) ins).calls.length ≤ k :=
      List.getElem?_eq_none_iff.mp hc
    have : (List.range (run f (NewWithConfig config f now) ins).calls.length)[k]? = none :=
      List.getElem?_eq_none_iff.mpr (by simpa using hk)
    rw [this]; rfl
  | some c =>
    have hk : k < (run f (NewWithConfig config f now) ins).calls.length := by
      by_contra hn
      rw [List.getElem?_eq_none_iff.mpr (Nat.le_of_not_lt hn)] at hc
      cases hc
    rw [List.getElem?_range hk]
    simp only [Option.map_some']
    rw [hinv.seenStep k c hc]

/-! ## Cancellation and the completion signal -/

/-- C8: in every run, when the loop waits in the paused state or at the checkpoint after
a step and receives the cancellation, it reaches `stopped`: no callback is invoked by
this transition or by anything that follows (the machine no longer changes), no ticker is
left running, and `Done` is called exactly once if the active configuration has a wait
group (it was not called before) and never otherwise. -/
theorem cancel_stops (config : FixedTimestepConfig) (f : FixedTimestepFunc) (now : Time)
    (ins : List Input) (i : Input) (rest : List Input)
    (hloc : (run f (NewWithConfig config f now) ins).loc = Loc.pausedWait ∨
      (run f (NewWithConfig config f now) ins).loc = Loc.checkpoint)
    (hi : i.stim = Stimulus.cancel) :
    (step f (run f (NewWithConfig config f now) ins) i).loc = Loc.stopped ∧
    (step f (run f (NewWithConfig config f now) ins) i).calls =
      (run f (NewWithConfig config f now) ins).calls ∧
    tickerIdle (step f (run f (NewWithConfig config f now) ins) i).ts ∧
    (run f (NewWithConfig config f now) ins).done = [] ∧
    (step f (run f (NewWithConfig config f now) ins) i).done =
      (run f (NewWithConfig config f now) ins).ts.Config.WaitGroup.toList ∧
    run f (step f (run f (NewWithConfig config f now) ins) i) rest =
      step f (run f (NewWithConfig config f now) ins) i := by
  have hinv := reachable_Inv config f now ins
  have hinv2 := step_Inv f _ i hinv
  generalize run f (NewWithConfig config f now) ins = m at *
  have hnd : m.done = [] :=
    hinv.doneRunning (by rcases hloc with h | h <;> rw [h] <;> decide)
  have hstep : step f m i = exitLoop m ∨ step f m i = exitLoop { m with ts := stopTicker m.ts } := by
    unfold step
    rcases hloc with h | h <;> rw [h] <;> simp only [hi]
    · exact Or.inl trivial
    · exact Or.inr trivial
  have hstop : (step f m i).loc = Loc.stopped := by
    rcases hstep with h | h <;> rw [h] <;> exact exitLoop_loc _
  refine ⟨hstop, ?_, hinv2.stoppedIdle hstop, hnd, ?_, run_stopped f rest _ hstop⟩
  · rcases hstep with h | h <;> rw [h, exitLoop_calls]
  · rcases hstep with h | h <;> rw [h, exitLoop_done] <;> simp [hnd, stopTicker]

theorem playStep_blocked (f : FixedTimestepFunc) (m : Machine) (now : Time)
    (h : f (beginStep m.ts now) ≠ []) :
    playStep f m now =
      { m with ts := beginStep m.ts now, index := m.index + 1, loc := Loc.blocked,
               calls := m.calls ++ [Call.mk m.phase (m.index + 1) (beginStep m.ts now)] } := by
  unfold playStep
  simp only []
  split
  · rfl
  · rename_i heq
    exact absurd heq h

theorem playStep_quiet (f : FixedTimestepFunc) (m : Machine) (now : Time)
    (h : f (beginStep m.ts now) = []) :
    playStep f m now =
      if ((endStep (beginStep m.ts now)).Config.StepsUntilPause != 0 &&
          (endStep (beginStep m.ts now)).StepsUntilPause == 0) = true then
        { m with
          ts := stopTicker { endStep (beginStep m.ts now) with
            Config := { (endStep (beginStep m.ts now)).Config with Paused := true } }
          index := m.index + 1, loc := Loc.pausedWait
          calls := m.calls ++ [Call.mk m.phase (m.index + 1) (beginStep m.ts now)] }
      else
        { m with ts := endStep (beginStep m.ts now), index := m.index + 1,
                 loc := Loc.checkpoint
                 calls := m.calls ++ [Call.mk m.phase (m.index + 1) (beginStep m.ts now)] } := by
  unfold playStep
  simp only []
  split
  · rename_i heq
    rw [h] at heq
    cases heq
  · rfl

theorem playStep_WaitGroup (f : FixedTimestepFunc) (m : Machine) (now : Time) :
    (playStep f m now).ts.Config.WaitGroup = m.ts.Config.WaitGroup := by
  by_cases h : f (beginStep m.ts now) = []
  · rw [playStep_quiet f m now h]
    split <;> simp [stopTicker, endStep, beginStep_Config]
  · rw [playStep_blocked f m now h]
    simp [beginStep_Config]

theorem enterPlaying_WaitGroup (f : FixedTimestepFunc) (m : Machine) (now : Time) :
    (enterPlaying f m now).ts.Config.WaitGroup = m.ts.Config.WaitGroup := by
  unfold enterPlaying
  simp only []
  split
  · rfl
  · rw [playStep_WaitGroup]

theorem runLoop_WaitGroup (f : FixedTimestepFunc) (m : Machine) (now : Time) :
    (runLoop f m now).ts.Config.WaitGroup = m.ts.Config.WaitGroup := by
  unfold runLoop
  split
  · rfl
  · exact enterPlaying_WaitGroup f m now

/-- A step keeps the wait group of the active configuration, unless it consumes a
reconfiguration, whose wait group it then adopts. -/
theorem step_WaitGroup (f : FixedTimestepFunc) (m : Machine) (i : Input) :
    (step f m i).ts.Config.WaitGroup = m.ts.Config.WaitGroup ∨
    ∃ c, i.stim = Stimulus.reconfig c ∧ (step f m i).ts.Config.WaitGroup = c.WaitGroup := by
  unfold step
  split
  · split
    · left; rw [exitLoop_ts]
    · rename_i c hc
      right
      exact ⟨c, hc, by rw [runLoop_WaitGroup]; exact defaults_WaitGroup c⟩
    · left; rfl
  · split
    · left; rw [exitLoop_ts]; simp [stopTicker]
    · rename_i c hc
      right
      exact ⟨c, hc, by rw [runLoop_WaitGroup]; simp [stopTicker, defaults_WaitGroup]⟩
    · left; exact playStep_WaitGroup f m _
  · left; rfl

theorem run_WaitGroup (f : FixedTimestepFunc) (wg : Option Nat) (ins : List Input)
    (hins : ∀ i ∈ ins, ∀ c, i.stim = Stimulus.reconfig c → c.WaitGroup = wg) :
    ∀ m : Machine, m.ts.Config.WaitGroup = wg → (run f m ins).ts.Config.WaitGroup = wg := by
  induction ins with
  | nil => intro m hm; exact hm
  | cons i rest ih =>
    intro m hm
    rw [run_cons]
    apply ih (fun j hj => hins j (List.mem_cons_of_mem _ hj))
    rcases step_WaitGroup f m i with h | ⟨c, hc, h⟩
    · rw [h]; exact hm
    · rw [h]; exact hins i (List.mem_cons_self _ _) c hc

theorem NewWithConfig_WaitGroup (config : FixedTimestepConfig) (f : FixedTimestepFunc)
    (now : Time) : (NewWithConfig config f now).ts.Config.WaitGroup = config.WaitGroup := by
  unfold NewWithConfig
  simp only []
  rw [runLoop_WaitGroup]
  exact defaults_WaitGroup config

/-- C9, as stated, fails: the controller is built with wait group 1 and, while it plays,
consumes a reconfiguration carrying wait group 2 (or none); at shutdown `Done` is called
on wait group 2 (or not at all), and never on wait group 1. -/
theorem construction_waitgroup_not_signalled :
    (run quiet (NewWithConfig (playConfig (some 1)) quiet 1000)
      [Input.mk (Stimulus.reconfig (playConfig (some 2))) 2000,
       Input.mk Stimulus.cancel 3000]).loc = Loc.stopped ∧
    (run quiet (NewWithConfig (playConfig (some 1)) quiet 1000)
      [Input.mk (Stimulus.reconfig (playConfig (some 2))) 2000,
       Input.mk Stimulus.cancel 3000]).done = [2] ∧
    (run quiet (NewWithConfig (playConfig (some 1)) quiet 1000)
      [Input.mk (Stimulus.reconfig (playConfig none)) 2000,
       Input.mk Stimulus.cancel 3000]).loc = Loc.stopped ∧
    (run quiet (NewWithConfig (playConfig (some 1)) quiet 1000)
      [Input.mk (Stimulus.reconfig (playConfig none)) 2000,
       Input.mk Stimulus.cancel 3000]).done = [] := by
  decide!

/-- C9, amended: in every run `Done` is not called before the loop stops, and once it has
stopped `Done` has been called exactly once on the wait group of the configuration active
at shutdown (not at all if that configuration has none); this is the wait group supplied
at construction when every reconfiguration received carries that same wait group. -/
theorem active_waitgroup_signalled_once (config : FixedTimestepConfig)
    (f : FixedTimestepFunc) (now : Time) (ins : List Input) :
    ((run f (NewWithConfig config f now) ins).loc ≠ Loc.stopped →
      (run f (NewWithConfig config f now) ins).done = []) ∧
    ((run f (NewWithConfig config f now) ins).loc = Loc.stopped →
      (run f (NewWithConfig config f now) ins).done =
        (run f (NewWithConfig config f now) ins).ts.Config.WaitGroup.toList) ∧
    ((∀ i ∈ ins, ∀ c, i.stim = Stimulus.reconfig c → c.WaitGroup = config.WaitGroup) →
      (run f (NewWithConfig config f now) ins).ts.Config.WaitGroup = config.WaitGroup) := by
  have hinv := reachable_Inv config f now ins
  exact ⟨hinv.doneRunning, hinv.doneStopped, fun h =>
    run_WaitGroup f config.WaitGroup ins h _ (NewWithConfig_WaitGroup config f now)⟩

/-- Witness of C9: wait group 1 at construction and in the reconfiguration received. -/
theorem active_waitgroup_signalled_once_witness :
    (run quiet (NewWithConfig (playConfig (some 1)) quiet 1000)
      [Input.mk (Stimulus.reconfig (playConfig (some 1))) 2000,
       Input.mk Stimulus.cancel 3000]).done = [1] := by
  have h := active_waitgroup_signalled_once (playConfig (some 1)) quiet 1000
    [Input.mk (Stimulus.reconfig (playConfig (some 1))) 2000, Input.mk Stimulus.cancel 3000]
  have hsame : ∀ i ∈ [Input.mk (Stimulus.reconfig (playConfig (some 1))) 2000,
      Input.mk Stimulus.cancel 3000], ∀ c, i.stim = Stimulus.reconfig c →
      c.WaitGroup = (playConfig (some 1)).WaitGroup := by
    intro i hi c hc
    simp only [List.mem_cons, List.mem_singleton, List.not_mem_nil, or_false] at hi
    rcases hi with rfl | rfl
    · cases hc; rfl
    · cases hc
  rw [h.2.1 (by decide!), h.2.2 hsame]
  rfl

/-- Witness of C8: cancellation at the checkpoint that follows the second step. -/
theorem cancel_stops_witness :
    (step quiet (run quiet (NewWithConfig (playConfig (some 7)) quiet 1000)
      [Input.mk Stimulus.tick 2000]) (Input.mk Stimulus.cancel 3000)).loc = Loc.stopped ∧
    (step quiet (run quiet (NewWithConfig (playConfig (some 7)) quiet 1000)
      [Input.mk Stimulus.tick 2000]) (Input.mk Stimulus.cancel 3000)).done = [7] :=
  ⟨(cancel_stops (playConfig (some 7)) quiet 1000 [Input.mk Stimulus.tick 2000]
      (Input.mk Stimulus.cancel 3000) [] (Or.inr (by decide!)) rfl).1,
   by decide!⟩

/-! ## The step budget -/

theorem playStep_BudgetInv (f : FixedTimestepFunc) (m : Machine) (now : Time)
    (hs : ∀ c ∈ m.calls, BudgetSeen c) (hl : BudgetLeft m) :
    BudgetInv (playStep f m now) := by
  have hseen : ∀ c ∈ (playStep f m now).calls, BudgetSeen c := by
    intro c hc
    rw [playStep_calls] at hc
    rcases List.mem_append.mp hc with h | h
    · exact hs c h
    · rw [List.mem_singleton] at h
      rw [h]
      intro h0 h64
      simp only [beginStep_Config, beginStep_StepsUntilPause] at h0 h64 ⊢
      obtain ⟨h1, h2⟩ := hl h0 h64
      exact ⟨by omega, h2, by omega⟩
  refine ⟨hseen, ?_⟩
  intro hloc
  by_cases h : f (beginStep m.ts now) = []
  · rw [playStep_quiet f m now h] at hloc ⊢
    split
    · rename_i hcond
      rw [if_pos hcond] at hloc
      cases hloc
    · rename_i hcond
      intro h0 h64
      have hN : (endStep (beginStep m.ts now)).Config.StepsUntilPause =
          m.ts.Config.StepsUntilPause := by simp [endStep, beginStep_Config]
      have hS : (endStep (beginStep m.ts now)).StepsUntilPause =
          (m.ts.StepsUntilPause + (2 ^ 64 - 1)) % 2 ^ 64 := by
        simp [endStep, beginStep_StepsUntilPause]
      simp only [hN, hS] at hcond h0 h64 ⊢
      obtain ⟨h1, h2⟩ := hl h0 h64
      have hne : (m.ts.StepsUntilPause + (2 ^ 64 - 1)) % 2 ^ 64 ≠ 0 := by
        intro hz
        apply hcond
        simp [hz]
        omega
      show (m.ts.StepsUntilPause + (2 ^ 64 - 1)) % 2 ^ 64 + (m.index + 1) = _ ∧ _
      omega
  · rw [playStep_blocked f m now h] at hloc
    cases hloc

theorem enterPlaying_calls_prefix (f : FixedTimestepFunc) (m : Machine) (now : Time) :
    ∀ c ∈ m.calls, c ∈ (enterPlaying f m now).calls := by
  intro c hc
  unfold enterPlaying
  simp only []
  split
  · exact hc
  · rw [playStep_calls]
    exact List.mem_append_left _ hc

theorem enterPlaying_BudgetInv (f : FixedTimestepFunc) (m : Machine) (now : Time)
    (hs : ∀ c ∈ m.calls, BudgetSeen c) : BudgetInv (enterPlaying f m now) := by
  unfold enterPlaying
  simp only []
  split
  · exact ⟨hs, fun h => by cases h⟩
  · refine playStep_BudgetInv f _ now hs ?_
    intro h0 _
    exact ⟨rfl, h0⟩

theorem runLoop_BudgetInv (f : FixedTimestepFunc) (m : Machine) (now : Time)
    (hs : ∀ c ∈ m.calls, BudgetSeen c) : BudgetInv (runLoop f m now) := by
  unfold runLoop
  split
  · exact ⟨hs, fun h => by cases h⟩
  · exact enterPlaying_BudgetInv f m now hs

theorem step_BudgetInv (f : FixedTimestepFunc) (m : Machine) (i : Input)
    (hm : BudgetInv m) : BudgetInv (step f m i) := by
  unfold step
  split
  · split
    · exact ⟨by rw [exitLoop_calls]; exact hm.seen,
        fun h => by rw [exitLoop_loc] at h; cases h⟩
    · exact runLoop_BudgetInv f _ _ hm.seen
    · exact hm
  · rename_i hl
    split
    · exact ⟨by rw [exitLoop_calls]; exact hm.seen,
        fun h => by rw [exitLoop_loc] at h; cases h⟩
    · exact runLoop_BudgetInv f _ _ hm.seen
    · exact playStep_BudgetInv f m _ hm.seen (hm.left hl)
  · exact hm

theorem reachable_BudgetInv (config : FixedTimestepConfig) (f : FixedTimestepFunc)
    (now : Time) (ins : List Input) : BudgetInv (run f (NewWithConfig config f now) ins) := by
  have h0 : BudgetInv (NewWithConfig config f now) := by
    unfold NewWithConfig
    exact runLoop_BudgetInv f _ now (fun c hc => by simp [created] at hc)
  have hrun : ∀ (l : List Input) (m : Machine), BudgetInv m → BudgetInv (run f m l) := by
    intro l
    induction l with
    | nil => intro m hm; exact hm
    | cons i rest ih => intro m hm; rw [run_cons]; exact ih _ (step_BudgetInv f m i hm)
  exact hrun ins _ h0

/-- C2, as stated, fails: with a budget of 3 the three invocations of the phase read
3, 2, 1 in `StepsUntilPause` (the field is decremented after the callback returns), not
2, 1, 0; the controller is then paused. -/
theorem budget_three_reads_3_2_1 :
    (run quiet (NewWithConfig (budgetConfig 3) quiet 1000)
      [Input.mk Stimulus.tick 2000, Input.mk Stimulus.tick 3000]).calls.map
        (fun c => c.seen.StepsUntilPause) = [3, 2, 1] ∧
    (run quiet (NewWithConfig (budgetConfig 3) quiet 1000)
      [Input.mk Stimulus.tick 2000, Input.mk Stimulus.tick 3000]).calls.map
        (fun c => c.seen.StepsUntilPause) ≠ [2, 1, 0] ∧
    (run quiet (NewWithConfig (budgetConfig 3) quiet 1000)
      [Input.mk Stimulus.tick 2000, Input.mk Stimulus.tick 3000]).loc = Loc.pausedWait := by
  decide!

/-- C2, amended: in every run, a callback invocation whose active configuration has a
budget `StepsUntilPause = N > 0` and which is the `i`-th of its Playing phase reads
`StepsUntilPause = N - i + 1`, the budget left including the step being run; `i` ranges
over `1..N`. -/
theorem steps_until_pause_seen (config : FixedTimestepConfig) (f : FixedTimestepFunc)
    (now : Time) (ins : List Input) (c : Call)
    (hc : c ∈ (run f (NewWithConfig config f now) ins).calls)
    (h0 : 0 < c.seen.Config.StepsUntilPause)
    (h64 : c.seen.Config.StepsUntilPause < 2 ^ 64) :
    c.seen.StepsUntilPause = c.seen.Config.StepsUntilPause - c.index + 1 ∧
    1 ≤ c.index ∧ c.index ≤ c.seen.Config.StepsUntilPause := by
  obtain ⟨h1, h2, h3⟩ := (reachable_BudgetInv config f now ins).seen c hc h0 h64
  omega

/-- Witness of C2: the second of three budgeted steps reads 2. -/
theorem steps_until_pause_seen_witness :
    ((run quiet (NewWithConfig (budgetConfig 3) quiet 1000)
      [Input.mk Stimulus.tick 2000, Input.mk Stimulus.tick 3000]).calls[1]?).map
        (fun c => (c.index, c.seen.StepsUntilPause)) = some (2, 2) := by
  have hN : ((run quiet (NewWithConfig (budgetConfig 3) quiet 1000)
      [Input.mk Stimulus.tick 2000, Input.mk Stimulus.tick 3000]).calls[1]?).map
        (fun c => (c.index, c.seen.Config.StepsUntilPause)) = some (2, 3) := by decide!
  cases hc : (run quiet (NewWithConfig (budgetConfig 3) quiet 1000)
      [Input.mk Stimulus.tick 2000, Input.mk Stimulus.tick 3000]).calls[1]? with
  | none => rw [hc] at hN; cases hN
  | some c =>
    rw [hc] at hN
    simp only [Option.map_some', Option.some.injEq, Prod.mk.injEq] at hN ⊢
    have h := steps_until_pause_seen (budgetConfig 3) quiet 1000
      [Input.mk Stimulus.tick 2000, Input.mk Stimulus.tick 3000] c
      (List.getElem?_mem hc) (by omega) (by omega)
    omega

/-! ## Automatic pause -/

theorem run_ticks_paused (f : FixedTimestepFunc) (nows : List Time) :
    ∀ m : Machine, m.loc = Loc.pausedWait → run f m (ticks nows) = m := by
  induction nows with
  | nil => intro m _; rfl
  | cons t rest ih =>
    intro m hm
    have hs : step f m (Input.mk Stimulus.tick t) = m := by unfold step; rw [hm]
    show run f m (Input.mk Stimulus.tick t :: ticks rest) = m
    rw [run_cons, hs]
    exact ih m hm

/-- In the paused state no callback is invoked as long as no reconfiguration with
`Paused = false` is received. -/
theorem paused_no_calls (f : FixedTimestepFunc) (rest : List Input) :
    ∀ m : Machine, m.loc = Loc.pausedWait →
      (∀ i ∈ rest, ∀ c, i.stim = Stimulus.reconfig c → c.Paused = true) →
      (run f m rest).calls = m.calls := by
  induction rest with
  | nil => intro m _ _; rfl
  | cons i rest ih =>
    intro m hm hrest
    have hrest2 : ∀ j ∈ rest, ∀ c, j.stim = Stimulus.reconfig c → c.Paused = true :=
      fun j hj => hrest j (List.mem_cons_of_mem _ hj)
    rw [run_cons]
    cases hi : i.stim with
    | cancel =>
      have hs : step f m i = exitLoop m := by unfold step; rw [hm]; simp only [hi]
      rw [hs, run_stopped f rest _ (exitLoop_loc m), exitLoop_calls]
    | reconfig c =>
      have hp : c.Paused = true := hrest i (List.mem_cons_self _ _) c hi
      have hs : step f m i =
          { m with ts := { m.ts with Config := defaults c }, loc := Loc.pausedWait } := by
        unfold step; rw [hm]; simp only [hi]
        unfold runLoop
        simp [defaults_Paused, hp]
      rw [hs, ih _ rfl hrest2]
    | tick =>
      have hs : step f m i = m := by unfold step; rw [hm]; simp only [hi]
      rw [hs]
      exact ih m hm hrest2

/-- A phase with a budget, run by ticks alone: a step followed by enough ticks invokes the
callback exactly as many times as the budget left, and then the controller is paused. -/
theorem budget_run (f : FixedTimestepFunc) (hf : ∀ ts, f ts = []) (nows : List Time) :
    ∀ (m : Machine) (r : Nat) (t : Time), m.ts.Config.StepsUntilPause ≠ 0 →
      m.ts.StepsUntilPause = r → 0 < r → r < 2 ^ 64 → r ≤ nows.length + 1 →
      ∃ new : List Call,
        (run f (playStep f m t) (ticks nows)).calls = m.calls ++ new ∧
        new.length = r ∧ (∀ c ∈ new, c.phase = m.phase) ∧
        (run f (playStep f m t) (ticks nows)).loc = Loc.pausedWait ∧
        (run f (playStep f m t) (ticks nows)).ts.Config.Paused = true ∧
        tickerIdle (run f (playStep f m t) (ticks nows)).ts := by
  induction nows with
  | nil =>
    intro m r t hN hr h0 h64 hlen
    have hr1 : r = 1 := by simp at hlen; omega
    have hcond : ((endStep (beginStep m.ts t)).Config.StepsUntilPause != 0 &&
        (endStep (beginStep m.ts t)).StepsUntilPause == 0) = true := by
      simp [endStep, beginStep_Config, beginStep_StepsUntilPause, hN, hr, hr1]
    refine ⟨[Call.mk m.phase (m.index + 1) (beginStep m.ts t)], ?_, ?_, ?_, ?_, ?_, ?_⟩
    · show (playStep f m t).calls = _
      exact playStep_calls f m t
    · rw [hr1]; rfl
    · intro c hc; rw [List.mem_singleton] at hc; rw [hc]
    · show (playStep f m t).loc = _
      rw [playStep_quiet f m t (hf _), if_pos hcond]
    · show (playStep f m t).ts.Config.Paused = _
      rw [playStep_quiet f m t (hf _), if_pos hcond]; rfl
    · show tickerIdle (playStep f m t).ts
      rw [playStep_quiet f m t (hf _), if_pos hcond]
      exact tickerIdle_stopTicker _
  | cons u rest ih =>
    intro m r t hN hr h0 h64 hlen
    by_cases hr1 : r = 1
    · have hcond : ((endStep (beginStep m.ts t)).Config.StepsUntilPause != 0 &&
          (endStep (beginStep m.ts t)).StepsUntilPause == 0) = true := by
        simp [endStep, beginStep_Config, beginStep_StepsUntilPause, hN, hr, hr1]
      have hp : (playStep f m t).loc = Loc.pausedWait := by
        rw [playStep_quiet f m t (hf _), if_pos hcond]
      rw [run_ticks_paused f (u :: rest) _ hp]
      refine ⟨[Call.mk m.phase (m.index + 1) (beginStep m.ts t)],
        playStep_calls f m t, by rw [hr1]; rfl, ?_, hp, ?_, ?_⟩
      · intro c hc; rw [List.mem_singleton] at hc; rw [hc]
      · rw [playStep_quiet f m t (hf _), if_pos hcond]; rfl
      · rw [playStep_quiet f m t (hf _), if_pos hcond]
        exact tickerIdle_stopTicker _
    · have hS : (endStep (beginStep m.ts t)).StepsUntilPause = r - 1 := by
        simp only [endStep, beginStep_StepsUntilPause, hr]
        omega
      have hcond : ¬ (((endStep (beginStep m.ts t)).Config.StepsUntilPause != 0 &&
          (endStep (beginStep m.ts t)).StepsUntilPause == 0) = true) := by
        rw [hS]
        simp
        intro _
        omega
      have hq := playStep_quiet f m t (hf _)
      rw [if_neg hcond] at hq
      have hstep : step f (playStep f m t) (Input.mk Stimulus.tick u) =
          playStep f (playStep f m t) u := by
        unfold step
        have hl : (playStep f m t).loc = Loc.checkpoint := by rw [hq]
        rw [hl]
      have hrun : run f (playStep f m t) (ticks (u :: rest)) =
          run f (playStep f (playStep f m t) u) (ticks rest) := by
        show run f (playStep f m t) (Input.mk Stimulus.tick u :: ticks rest) = _
        rw [run_cons, hstep]
      rw [hrun]
      have hN2 : (playStep f m t).ts.Config.StepsUntilPause ≠ 0 := by
        rw [hq]; simpa [endStep, beginStep_Config] using hN
      have hr2 : (playStep f m t).ts.StepsUntilPause = r - 1 := by rw [hq]; exact hS
      obtain ⟨new, h1, h2, h3, h4, h5, h6⟩ :=
        ih (playStep f m t) (r - 1) u hN2 hr2 (by omega) (by omega)
          (by simp at hlen; omega)
      refine ⟨Call.mk m.phase (m.index + 1) (beginStep m.ts t) :: new, ?_, ?_, ?_, h4, h5, h6⟩
      · rw [h1, playStep_calls]; simp
      · simp [h2]; omega
      · intro c hc
        rcases List.mem_cons.mp hc with h | h
        · rw [h]
        · rw [h3 c h, playStep_phase]

/-- When the active configuration is not paused and the timer can be armed, `runLoop`
enters a Playing phase and runs its first step. -/
theorem runLoop_playing (f : FixedTimestepFunc) (m : Machine) (now : Time)
    (hP : m.ts.Config.Paused = false)
    (hT : 0 < F64.toInt64 (F64.mul m.ts.Config.DesiredTimestep (F64.ofInt Second))) :
    runLoop f m now = playStep f (phaseEntry m) now := by
  unfold runLoop
  rw [hP]
  simp only [Bool.false_eq_true, if_false]
  unfold enterPlaying
  simp only []
  rw [if_neg (not_le.mpr hT)]
  rfl

/-- C4: a Playing phase is entered by `runLoop` (at construction and after a
reconfiguration received in either state) when the active configuration is not paused.
With a budget `StepsUntilPause = N > 0`, a timer that could be armed, a callback that does
not call `Update`, and ticks as the only inputs, `N - 1` ticks or more make exactly `N`
callback invocations, all in that phase; the loop has then set `Paused`, stopped the
ticker and waits in the paused state, and no callback is invoked afterwards as long as no
reconfiguration with `Paused = false` is received. -/
theorem auto_pause_after_budget (f : FixedTimestepFunc) (m : Machine) (now : Time)
    (nows : List Time) (rest : List Input) (N : Nat)
    (hf : ∀ ts, f ts = [])
    (hP : m.ts.Config.Paused = false)
    (hN : m.ts.Config.StepsUntilPause = N) (h0 : 0 < N) (h64 : N < 2 ^ 64)
    (hT : 0 < F64.toInt64 (F64.mul m.ts.Config.DesiredTimestep (F64.ofInt Second)))
    (hlen : N ≤ nows.length + 1)
    (hrest : ∀ i ∈ rest, ∀ c, i.stim = Stimulus.reconfig c → c.Paused = true) :
    ∃ new : List Call,
      (run f (runLoop f m now) (ticks nows)).calls = m.calls ++ new ∧
      new.length = N ∧ (∀ c ∈ new, c.phase = m.phase + 1) ∧
      (run f (runLoop f m now) (ticks nows)).loc = Loc.pausedWait ∧
      (run f (runLoop f m now) (ticks nows)).ts.Config.Paused = true ∧
      tickerIdle (run f (runLoop f m now) (ticks nows)).ts ∧
      (run f (run f (runLoop f m now) (ticks nows)) rest).calls = m.calls ++ new := by
  rw [runLoop_playing f m now hP hT]
  obtain ⟨new, h1, h2, h3, h4, h5, h6⟩ :=
    budget_run f hf nows (phaseEntry m) N now
      (by show m.ts.Config.StepsUntilPause ≠ 0; omega) hN h0 h64 hlen
  refine ⟨new, h1, h2, h3, h4, h5, h6, ?_⟩
  rw [paused_no_calls f rest _ h4 hrest]
  exact h1

/-- Witness of C4: a budget of 3 at construction, three ticks, and a tick afterwards. -/
theorem auto_pause_after_budget_witness :
    (run quiet (NewWithConfig (budgetConfig 3) quiet 1000) (ticks [2000, 3000, 4000])).loc
      = Loc.pausedWait ∧
    (run quiet (run quiet (NewWithConfig (budgetConfig 3) quiet 1000)
      (ticks [2000, 3000, 4000])) [Input.mk Stimulus.tick 5000]).calls.length = 3 := by
  have hrest : ∀ i ∈ [Input.mk Stimulus.tick 5000], ∀ c,
      i.stim = Stimulus.reconfig c → c.Paused = true := by
    intro i hi c hc
    rw [List.mem_singleton] at hi
    rw [hi] at hc
    cases hc
  obtain ⟨new, _, h2, _, h4, _, _, h7⟩ :=
    auto_pause_after_budget quiet (created (defaults (budgetConfig 3))) 1000
      [2000, 3000, 4000] [Input.mk Stimulus.tick 5000] 3 (fun _ => rfl) (by decide!)
      (by decide!) (by decide) (by decide) (by decide!) (by decide) hrest
  refine ⟨h4, ?_⟩
  show (run quiet (run quiet (runLoop quiet (created (defaults (budgetConfig 3))) 1000)
    (ticks [2000, 3000, 4000])) [Input.mk Stimulus.tick 5000]).calls.length = 3
  rw [h7, List.length_append, h2]
  rfl

/-! ## The step count of `TotalStats` -/

theorem updateStats_Steps (d g : F64) (st : Stats) :
    (updateStats d g st).Steps = (st.Steps + 1) % 2 ^ 64 := by
  unfold updateStats
  simp only []
  split <;> split <;> rfl

theorem endStep_TotalStats (ts : FixedTimestep) :
    (endStep ts).TotalStats = ts.TotalStats := by
  unfold endStep; rfl

theorem endStep_lastStepTime (ts : FixedTimestep) : (endStep ts).lastStepTime = ts.Now := by
  unfold endStep; rfl

theorem stopTicker_TotalStats (ts : FixedTimestep) :
    (stopTicker ts).TotalStats = ts.TotalStats := by
  unfold stopTicker; rfl

theorem playStep_TotalStats (f : FixedTimestepFunc) (m : Machine) (now : Time) :
    (playStep f m now).ts.TotalStats = (beginStep m.ts now).TotalStats := by
  by_cases h : f (beginStep m.ts now) = []
  · rw [playStep_quiet f m now h]
    split
    · show (stopTicker _).TotalStats = _
      rw [stopTicker_TotalStats]
      show (endStep (beginStep m.ts now)).TotalStats = _
      rw [endStep_TotalStats]
    · show (endStep (beginStep m.ts now)).TotalStats = _
      rw [endStep_TotalStats]
  · rw [playStep_blocked f m now h]

theorem playStep_lastStepTime (f : FixedTimestepFunc) (m : Machine) (now : Time)
    (h : (playStep f m now).loc = Loc.checkpoint) :
    (playStep f m now).ts.lastStepTime = now := by
  by_cases hf : f (beginStep m.ts now) = []
  · rw [playStep_quiet f m now hf] at h ⊢
    split
    · rename_i hc; rw [if_pos hc] at h; cases h
    · show (endStep (beginStep m.ts now)).lastStepTime = now
      rw [endStep_lastStepTime, beginStep_Now]
  · rw [playStep_blocked f m now hf] at h
    cases h

theorem beginStep_TotalStats_Steps (ts : FixedTimestep) (now : Time) :
    (beginStep ts now).TotalStats.Steps =
      if ts.lastStepTime = 0 then ts.TotalStats.Steps
      else (ts.TotalStats.Steps + 1) % 2 ^ 64 := by
  by_cases h : ts.lastStepTime = 0
  · rw [beginStep_first ts now h, if_pos h]
  · rw [beginStep_later ts now h, if_neg h]
    exact updateStats_Steps _ _ _

theorem laterSteps_concat (calls : List Call) (c : Call) :
    ((calls ++ [c]).filter (fun c => decide (c.index ≠ 1))).length =
      (calls.filter (fun c => decide (c.index ≠ 1))).length +
        (if c.index = 1 then 0 else 1) := by
  rw [List.filter_append, List.length_append]
  by_cases h : c.index = 1
  · simp [h]
  · simp [h]

theorem playStep_StatsInv (f : FixedTimestepFunc) (m : Machine) (now : Time)
    (hnow : now ≠ 0) (ht : m.ts.TotalStats.Steps = laterSteps m % 2 ^ 64)
    (hz : m.ts.lastStepTime = 0 ↔ m.index = 0) : StatsInv (playStep f m now) := by
  refine ⟨?_, ?_⟩
  · rw [playStep_TotalStats, beginStep_TotalStats_Steps]
    unfold laterSteps at ht ⊢
    rw [playStep_calls, laterSteps_concat]
    show _ = (_ + if m.index + 1 = 1 then 0 else 1) % 2 ^ 64
    by_cases h0 : m.ts.lastStepTime = 0
    · have hi : m.index = 0 := hz.mp h0
      rw [if_pos h0, if_pos (by omega), ht]
      rfl
    · have hi : m.index ≠ 0 := fun h => h0 (hz.mpr h)
      rw [if_neg h0, if_neg (by omega), ht, Nat.add_mod, Nat.mod_mod, ← Nat.add_mod]
  · intro hl
    rw [playStep_lastStepTime f m now hl, playStep_index]
    exact ⟨hnow, Nat.succ_ne_zero _⟩

theorem enterPlaying_StatsInv (f : FixedTimestepFunc) (m : Machine) (now : Time)
    (hnow : now ≠ 0) (ht : m.ts.TotalStats.Steps = laterSteps m % 2 ^ 64) :
    StatsInv (enterPlaying f m now) := by
  unfold enterPlaying
  simp only []
  split
  · exact ⟨ht, fun h => by cases h⟩
  · exact playStep_StatsInv f _ now hnow ht ⟨fun _ => rfl, fun _ => rfl⟩

theorem runLoop_StatsInv (f : FixedTimestepFunc) (m : Machine) (now : Time)
    (hnow : now ≠ 0) (ht : m.ts.TotalStats.Steps = laterSteps m % 2 ^ 64) :
    StatsInv (runLoop f m now) := by
  unfold runLoop
  split
  · exact ⟨ht, fun h => by cases h⟩
  · exact enterPlaying_StatsInv f m now hnow ht

theorem step_StatsInv (f : FixedTimestepFunc) (m : Machine) (i : Input) (hnow : i.now ≠ 0)
    (hm : StatsInv m) : StatsInv (step f m i) := by
  have hexit : ∀ m2 : Machine, m2.ts.TotalStats = m.ts.TotalStats → m2.calls = m.calls →
      StatsInv (exitLoop m2) := by
    intro m2 h1 h2
    refine ⟨?_, fun h => by rw [exitLoop_loc] at h; cases h⟩
    unfold laterSteps
    rw [exitLoop_ts, exitLoop_calls, h1, h2]
    exact hm.total
  unfold step
  split
  · split
    · exact hexit m rfl rfl
    · exact runLoop_StatsInv f _ _ hnow hm.total
    · exact hm
  · rename_i hl
    split
    · exact hexit _ rfl rfl
    · exact runLoop_StatsInv f _ _ hnow hm.total
    · have h := hm.later hl
      exact playStep_StatsInv f m _ hnow hm.total
        ⟨fun h0 => absurd h0 h.1, fun h0 => absurd h0 h.2⟩
  · exact hm

theorem run_StatsInv (f : FixedTimestepFunc) (ins : List Input) :
    ∀ m : Machine, (∀ i ∈ ins, i.now ≠ 0) → StatsInv m → StatsInv (run f m ins) := by
  induction ins with
  | nil => intro m _ hm; exact hm
  | cons i rest ih =>
    intro m hins hm
    rw [run_cons]
    exact ih _ (fun j hj => hins j (List.mem_cons_of_mem _ hj))
      (step_StatsInv f m i (hins i (List.mem_cons_self _ _)) hm)

/-- C3, as stated, fails: the first step of a phase is not folded into the stats.  After
construction one callback invocation has run and `TotalStats.Steps` is 0; after one more
tick two have run and it is 1; after a reconfiguration that starts a second phase three
have run and it is still 1. -/
theorem total_steps_misses_first_steps :
    (NewWithConfig (playConfig none) quiet 1000).calls.length = 1 ∧
    (NewWithConfig (playConfig none) quiet 1000).ts.TotalStats.Steps = 0 ∧
    (run quiet (NewWithConfig (playConfig none) quiet 1000)
      [Input.mk Stimulus.tick 2000]).calls.length = 2 ∧
    (run quiet (NewWithConfig (playConfig none) quiet 1000)
      [Input.mk Stimulus.tick 2000]).ts.TotalStats.Steps = 1 ∧
    (run quiet (NewWithConfig (playConfig none) quiet 1000)
      [Input.mk Stimulus.tick 2000,
       Input.mk (Stimulus.reconfig (playConfig none)) 3000]).calls.length = 3 ∧
    (run quiet (NewWithConfig (playConfig none) quiet 1000)
      [Input.mk Stimulus.tick 2000,
       Input.mk (Stimulus.reconfig (playConfig none)) 3000]).ts.TotalStats.Steps = 1 := by
  decide!

/-- C3, amended: in every run in which the clock never reads the zero instant, at every
blocking point of the loop `TotalStats.Steps` is the number of callback invocations that
were not the first of their Playing phase (modulo `2 ^ 64`): the first step of a phase is
not folded into the stats, every later step is. -/
theorem total_steps_counts_later_steps (config : FixedTimestepConfig)
    (f : FixedTimestepFunc) (now : Time) (ins : List Input)
    (hnow : now ≠ 0) (hins : ∀ i ∈ ins, i.now ≠ 0) :
    (run f (NewWithConfig config f now) ins).ts.TotalStats.Steps =
      ((run f (NewWithConfig config f now) ins).calls.filter
        (fun c => decide (c.index ≠ 1))).length % 2 ^ 64 := by
  have h0 : StatsInv (NewWithConfig config f now) := by
    unfold NewWithConfig
    exact runLoop_StatsInv f _ now hnow rfl
  exact (run_StatsInv f ins _ hins h0).total

/-- Witness of C3: two phases of two steps each, hence two folded steps. -/
theorem total_steps_counts_later_steps_witness :
    (run quiet (NewWithConfig (playConfig none) quiet 1000)
      [Input.mk Stimulus.tick 2000, Input.mk (Stimulus.reconfig (playConfig none)) 3000,
       Input.mk Stimulus.tick 4000]).ts.TotalStats.Steps = 2 := by
  have hins : ∀ i ∈ [Input.mk Stimulus.tick 2000,
      Input.mk (Stimulus.reconfig (playConfig none)) 3000, Input.mk Stimulus.tick 4000],
      i.now ≠ 0 := by
    intro i hi
    simp only [List.mem_cons, List.mem_singleton, List.not_mem_nil, or_false] at hi
    rcases hi with rfl | rfl | rfl <;> decide
  rw [total_steps_counts_later_steps (playConfig none) quiet 1000 _ (by decide) hins]
  decide!

/-! ## Delta and Gap at the first step of a phase -/

/-- C1 fails on the code: `run` clears `lastStepTime` when it enters a Playing phase but
not `Delta` and `Gap`, which are assigned only when a previous step of the phase exists.
The controller plays two steps 16 ms apart, is paused, and is resumed 8 s later: the
first callback invocation of the second phase reads `Delta = Gap = 0.016`, the values
left by the first phase.  The same happens when a reconfiguration restarts the phase
without a pause. -/
theorem first_step_after_pause_reads_stale_delta :
    (run quiet (NewWithConfig (playConfig none) quiet 1000000000)
      [Input.mk Stimulus.tick 1016000000,
       Input.mk (Stimulus.reconfig pausedConfig) 1020000000,
       Input.mk (Stimulus.reconfig (playConfig none)) 9000000000]).calls.map
        (fun c => (c.phase, c.index, c.seen.Delta, c.seen.Gap)) =
      [(1, 1, F64.fin 0, F64.fin 0),
       (1, 2, F64.fin (2 / 125), F64.fin (2 / 125)),
       (2, 1, F64.fin (2 / 125), F64.fin (2 / 125))] ∧
    (run quiet (NewWithConfig (playConfig none) quiet 1000000000)
      [Input.mk Stimulus.tick 1016000000,
       Input.mk (Stimulus.reconfig (playConfig none)) 9000000000]).calls.map
        (fun c => (c.phase, c.index, c.seen.Delta, c.seen.Gap)) =
      [(1, 1, F64.fin 0, F64.fin 0),
       (1, 2, F64.fin (2 / 125), F64.fin (2 / 125)),
       (2, 1, F64.fin (2 / 125), F64.fin (2 / 125))] := by
  decide!

/-! ## Update called by the callback -/

/-- Once the goroutine is blocked nothing changes any more. -/
theorem run_blocked (f : FixedTimestepFunc) (ins : List Input) :
    ∀ m : Machine, m.loc = Loc.blocked → run f m ins = m := by
  induction ins with
  | nil => intro m _; rfl
  | cons i rest ih =>
    intro m hm
    have hs : step f m i = m := by unfold step; rw [hm]
    rw [run_cons, hs]
    exact ih m hm

/-- C10 fails on the code: `controlCh` is unbuffered and is received only by the
goroutine that runs the callback.  A callback that calls `Update` on its second step
blocks that goroutine in the send: the step is never completed (`Step` stays 1), the
configuration passed is never adopted (`Paused` stays false), and no later tick,
reconfiguration or cancellation is received (the wait group is never signalled). -/
theorem update_in_callback_blocks :
    (run pausingCallback (NewWithConfig (playConfig (some 7)) pausingCallback 1000)
      [Input.mk Stimulus.tick 2000]).loc = Loc.blocked ∧
    (run pausingCallback (NewWithConfig (playConfig (some 7)) pausingCallback 1000)
      [Input.mk Stimulus.tick 2000]).ts.Step = 1 ∧
    (run pausingCallback (NewWithConfig (playConfig (some 7)) pausingCallback 1000)
      [Input.mk Stimulus.tick 2000, Input.mk Stimulus.tick 3000,
       Input.mk (Stimulus.reconfig pausedConfig) 4000,
       Input.mk Stimulus.cancel 5000]).loc = Loc.blocked ∧
    (run pausingCallback (NewWithConfig (playConfig (some 7)) pausingCallback 1000)
      [Input.mk Stimulus.tick 2000, Input.mk Stimulus.tick 3000,
       Input.mk (Stimulus.reconfig pausedConfig) 4000,
       Input.mk Stimulus.cancel 5000]).calls.length = 2 ∧
    (run pausingCallback (NewWithConfig (playConfig (some 7)) pausingCallback 1000)
      [Input.mk Stimulus.tick 2000, Input.mk Stimulus.tick 3000,
       Input.mk (Stimulus.reconfig pausedConfig) 4000,
       Input.mk Stimulus.cancel 5000]).ts.Config.Paused = false ∧
    (run pausingCallback (NewWithConfig (playConfig (some 7)) pausingCallback 1000)
      [Input.mk Stimulus.tick 2000, Input.mk Stimulus.tick 3000,
       Input.mk (Stimulus.reconfig pausedConfig) 4000,
       Input.mk Stimulus.cancel 5000]).done = [] := by
  decide!

/-- Whenever a callback calls `Update`, the goroutine that runs it blocks for good: the
state reached is the state at the callback invocation, whatever is sent afterwards. -/
theorem update_in_callback_blocks_always (f : FixedTimestepFunc) (m : Machine) (now : Time)
    (ins : List Input) (h : f (beginStep m.ts now) ≠ []) :
    (playStep f m now).loc = Loc.blocked ∧
    (playStep f m now).ts = beginStep m.ts now ∧
    run f (playStep f m now) ins = playStep f m now := by
  have hl : (playStep f m now).loc = Loc.blocked := by rw [playStep_blocked f m now h]
  refine ⟨hl, ?_, run_blocked f ins _ hl⟩
  rw [playStep_blocked f m now h]

/-! ## The statistics accumulator -/

theorem updateStats_TimeAccum (d g : F64) (st : Stats) :
    (updateStats d g st).TimeAccum = F64.add st.TimeAccum d := by
  unfold updateStats
  simp only []
  split <;> split <;> rfl

theorem updateStats_GapAccum (d g : F64) (st : Stats) :
    (updateStats d g st).GapAccum = F64.add st.GapAccum g := by
  unfold updateStats
  simp only []
  split <;> split <;> rfl

theorem updateStats_GapAbsAccum (d g : F64) (st : Stats) :
    (updateStats d g st).GapAbsAccum = F64.add st.GapAbsAccum (F64.abs g) := by
  unfold updateStats
  simp only []
  split <;> split <;> rfl

theorem updateStats_StepRate (d g : F64) (st : Stats) :
    (updateStats d g st).StepRate =
      F64.div (F64.ofNat ((st.Steps + 1) % 2 ^ 64)) (F64.add st.TimeAccum d) := by
  unfold updateStats
  simp only []
  split <;> split <;> rfl

theorem updateStats_StepAverage (d g : F64) (st : Stats) :
    (updateStats d g st).StepAverage =
      F64.div (F64.add st.TimeAccum d) (F64.ofNat ((st.Steps + 1) % 2 ^ 64)) := by
  unfold updateStats
  simp only []
  split <;> split <;> rfl

theorem updateStats_GapAbsAverage (d g : F64) (st : Stats) :
    (updateStats d g st).GapAbsAverage =
      F64.div (F64.add st.GapAbsAccum (F64.abs g)) (F64.ofNat ((st.Steps + 1) % 2 ^ 64)) := by
  unfold updateStats
  simp only []
  split <;> split <;> rfl

theorem updateStats_GapMax (d g : F64) (st : Stats) :
    (updateStats d g st).GapMax = if F64.gt g st.GapMax then g else st.GapMax := by
  unfold updateStats
  simp only []
  split <;> split <;> rfl

theorem updateStats_GapMin (d g : F64) (st : Stats) :
    (updateStats d g st).GapMin = if F64.lt g st.GapMin then g else st.GapMin := by
  unfold updateStats
  simp only []
  split <;> split <;> rfl

theorem updateStats_From (d g : F64) (st : Stats) :
    (updateStats d g st).From = st.From := by
  unfold updateStats
  simp only []
  split <;> split <;> rfl

theorem F64.add_fin_zero (x : F64) : F64.add x (F64.fin 0) = x := by
  cases x with
  | nan => rfl
  | ninf => rfl
  | pinf => rfl
  | fin a => show F64.fin (a + 0) = F64.fin a; rw [add_zero]

theorem F64.ofNat_succ_ne_zero (n : Nat) : F64.ofNat (n + 1) ≠ F64.fin 0 := by
  intro h
  have h2 : ((n + 1 : Nat) : ℚ) = 0 := F64.fin.inj h
  rw [Nat.cast_add, Nat.cast_one] at h2
  exact absurd h2 (Nat.cast_add_one_ne_zero n)

/-- C17: an update of an accumulator whose `Steps` is below `2 ^ 64 - 1` increments
`Steps` first, so the count by which `StepAverage` and `GapAbsAverage` are divided is at
least 1 and is not zero as a float, whatever the observation; and an update with
`Delta = 0` and `Gap = 0` increments `Steps` by 1 and leaves `TimeAccum`, `GapAccum` and
`GapAbsAccum` as they were. -/
theorem updateStats_divides_by_positive_count (d g : F64) (st : Stats)
    (h : st.Steps < 2 ^ 64 - 1) :
    (updateStats d g st).Steps = st.Steps + 1 ∧
    1 ≤ (updateStats d g st).Steps ∧
    F64.ofNat (updateStats d g st).Steps ≠ F64.fin 0 ∧
    (updateStats d g st).StepAverage =
      F64.div (updateStats d g st).TimeAccum (F64.ofNat (updateStats d g st).Steps) ∧
    (updateStats d g st).GapAbsAverage =
      F64.div (updateStats d g st).GapAbsAccum (F64.ofNat (updateStats d g st).Steps) ∧
    (updateStats (F64.fin 0) (F64.fin 0) st).Steps = st.Steps + 1 ∧
    (updateStats (F64.fin 0) (F64.fin 0) st).TimeAccum = st.TimeAccum ∧
    (updateStats (F64.fin 0) (F64.fin 0) st).GapAccum = st.GapAccum ∧
    (updateStats (F64.fin 0) (F64.fin 0) st).GapAbsAccum = st.GapAbsAccum := by
  have hs : ∀ d g, (updateStats d g st).Steps = st.Steps + 1 := by
    intro d g
    rw [updateStats_Steps]
    exact Nat.mod_eq_of_lt (by omega)
  refine ⟨hs d g, by rw [hs]; omega, by rw [hs]; exact F64.ofNat_succ_ne_zero _, ?_, ?_,
    hs _ _, ?_, ?_, ?_⟩
  · rw [updateStats_StepAverage, updateStats_TimeAccum, updateStats_Steps]
  · rw [updateStats_GapAbsAverage, updateStats_GapAbsAccum, updateStats_Steps]
  · rw [updateStats_TimeAccum, F64.add_fin_zero]
  · rw [updateStats_GapAccum, F64.add_fin_zero]
  · rw [updateStats_GapAbsAccum]
    show F64.add st.GapAbsAccum (F64.fin |0|) = _
    rw [abs_zero, F64.add_fin_zero]

/-- Witness of C17: the first update of a fresh accumulator, with a zero observation. -/
theorem updateStats_divides_by_positive_count_witness :
    (updateStats (F64.fin 0) (F64.fin 0) (newStats 0)).Steps = 1 ∧
    (updateStats (F64.fin 0) (F64.fin 0) (newStats 0)).StepAverage = F64.fin 0 ∧
    (updateStats (F64.fin 0) (F64.fin 0) (newStats 0)).TimeAccum = F64.fin 0 :=
  ⟨(updateStats_divides_by_positive_count (F64.fin 0) (F64.fin 0) (newStats 0)
      (by decide)).1,
   by decide!, by decide!⟩

theorem Folded_newStats (now : Time) : Folded [] (newStats now) := by
  refine ⟨rfl, rfl, rfl, rfl, fun _ => ⟨rfl, rfl⟩, fun h => absurd rfl h, fun h => absurd rfl h⟩

theorem Folded_updateStats (obs : List (ℚ × ℚ)) (o : ℚ × ℚ) (s : Stats)
    (h : Folded obs s) :
    Folded (obs ++ [o]) (updateStats (F64.fin o.1) (F64.fin o.2) s) := by
  refine ⟨?_, ?_, ?_, ?_, ?_, ?_, ?_⟩
  · rw [updateStats_Steps, h.steps, List.length_append, List.length_singleton,
      Nat.add_mod, Nat.mod_mod, ← Nat.add_mod]
  · rw [updateStats_TimeAccum, h.time]
    simp [F64.add]
  · rw [updateStats_GapAccum, h.gap]
    simp [F64.add]
  · rw [updateStats_GapAbsAccum, h.gapAbs]
    simp [F64.add, F64.abs]
  · intro hnil
    simp at hnil
  · intro _
    rw [updateStats_GapMax, updateStats_GapMin]
    by_cases hobs : obs = []
    · obtain ⟨hmax, hmin⟩ := h.fresh hobs
      rw [hmax, hmin, hobs]
      refine ⟨o.2, o.2, ?_, ?_, ?_, ?_, ?_⟩
      · rfl
      · rfl
      · simp
      · simp
      · intro g hg
        simp at hg
        rw [hg]
        exact ⟨le_refl _, le_refl _⟩
    · obtain ⟨gmax, gmin, hmax, hmin, hmaxin, hminin, hall⟩ := h.extrema hobs
      rw [hmax, hmin]
      have hmem : ∀ g, g ∈ (obs ++ [o]).map Prod.snd ↔ g ∈ obs.map Prod.snd ∨ g = o.2 := by
        intro g
        simp
      refine ⟨if gmax < o.2 then o.2 else gmax, if o.2 < gmin then o.2 else gmin,
        ?_, ?_, ?_, ?_, ?_⟩
      · by_cases hc : gmax < o.2
        · simp [F64.gt, F64.lt, hc]
        · simp [F64.gt, F64.lt, hc]
      · by_cases hc : o.2 < gmin
        · simp [F64.lt, hc]
        · simp [F64.lt, hc]
      · rw [hmem]
        by_cases hc : gmax < o.2
        · rw [if_pos hc]; exact Or.inr rfl
        · rw [if_neg hc]; exact Or.inl hmaxin
      · rw [hmem]
        by_cases hc : o.2 < gmin
        · rw [if_pos hc]; exact Or.inr rfl
        · rw [if_neg hc]; exact Or.inl hminin
      · intro g hg
        rw [hmem] at hg
        have hmm : gmin ≤ gmax := le_trans (hall gmax hmaxin).1 (le_refl _)
        constructor
        · by_cases hc : o.2 < gmin
          · rw [if_pos hc]
            rcases hg with hg | hg
            · exact le_trans (le_of_lt hc) (hall g hg).1
            · rw [hg]
          · rw [if_neg hc]
            rcases hg with hg | hg
            · exact (hall g hg).1
            · rw [hg]; exact le_of_not_lt hc
        · by_cases hc : gmax < o.2
          · rw [if_pos hc]
            rcases hg with hg | hg
            · exact le_trans (hall g hg).2 (le_of_lt hc)
            · rw [hg]
          · rw [if_neg hc]
            rcases hg with hg | hg
            · exact (hall g hg).2
            · rw [hg]; exact le_of_not_lt hc
  · intro _
    refine ⟨?_, ?_, ?_⟩
    · rw [updateStats_StepRate, updateStats_TimeAccum, updateStats_Steps]
    · rw [updateStats_StepAverage, updateStats_TimeAccum, updateStats_Steps]
    · rw [updateStats_GapAbsAverage, updateStats_GapAbsAccum, updateStats_Steps]

theorem foldStats_concat (l : List (F64 × F64)) (x : F64 × F64) (s : Stats) :
    foldStats (l ++ [x]) s = updateStats x.1 x.2 (foldStats l s) := by
  unfold foldStats
  rw [List.foldl_append]
  rfl

/-- The accumulator obtained by folding finite observations into a fresh one. -/
theorem foldStats_Folded (now : Time) (obs : List (ℚ × ℚ)) :
    Folded obs (foldStats (finiteObs obs) (newStats now)) := by
  induction obs using List.reverseRecOn with
  | nil => exact Folded_newStats now
  | append_singleton l o ih =>
    have hfin : finiteObs (l ++ [o]) = finiteObs l ++ [(F64.fin o.1, F64.fin o.2)] := by
      unfold finiteObs
      rw [List.map_append]
      rfl
    rw [hfin, foldStats_concat]
    exact Folded_updateStats l o _ ih

theorem F64.div_fin (a b : ℚ) (hb : b ≠ 0) :
    F64.div (F64.fin a) (F64.fin b) = F64.fin (a / b) := by
  show (if b = 0 then _ else F64.fin (a / b)) = _
  rw [if_neg hb]

/-- C13: for every non-empty sequence of fewer than `2 ^ 64` finite observations folded by
`updateStats` into a fresh accumulator, `Steps` is their number `n`, `TimeAccum`,
`GapAccum` and `GapAbsAccum` are the sums of the deltas, of the gaps and of the absolute
gaps, `GapMax` and `GapMin` are the largest and the smallest gap, `StepAverage` is
`TimeAccum / n`, `GapAbsAverage` is `GapAbsAccum / n` and, when `TimeAccum` is not zero,
`StepRate` is `n / TimeAccum`. -/
theorem foldStats_aggregates (now : Time) (obs : List (ℚ × ℚ))
    (hne : obs ≠ []) (hlen : obs.length < 2 ^ 64) :
    (foldStats (finiteObs obs) (newStats now)).Steps = obs.length ∧
    (foldStats (finiteObs obs) (newStats now)).TimeAccum =
      F64.fin (obs.map Prod.fst).sum ∧
    (foldStats (finiteObs obs) (newStats now)).GapAccum =
      F64.fin (obs.map Prod.snd).sum ∧
    (foldStats (finiteObs obs) (newStats now)).GapAbsAccum =
      F64.fin (obs.map (fun o => |o.2|)).sum ∧
    (∃ gmax gmin : ℚ,
      (foldStats (finiteObs obs) (newStats now)).GapMax = F64.fin gmax ∧
      (foldStats (finiteObs obs) (newStats now)).GapMin = F64.fin gmin ∧
      gmax ∈ obs.map Prod.snd ∧ gmin ∈ obs.map Prod.snd ∧
      ∀ g ∈ obs.map Prod.snd, gmin ≤ g ∧ g ≤ gmax) ∧
    (foldStats (finiteObs obs) (newStats now)).StepAverage =
      F64.fin ((obs.map Prod.fst).sum / obs.length) ∧
    (foldStats (finiteObs obs) (newStats now)).GapAbsAverage =
      F64.fin ((obs.map (fun o => |o.2|)).sum / obs.length) ∧
    ((obs.map Prod.fst).sum ≠ 0 →
      (foldStats (finiteObs obs) (newStats now)).StepRate =
        F64.fin (obs.length / (obs.map Prod.fst).sum)) := by
  have h := foldStats_Folded now obs
  have hsteps : (foldStats (finiteObs obs) (newStats now)).Steps = obs.length := by
    rw [h.steps]; exact Nat.mod_eq_of_lt hlen
  have hn : (obs.length : ℚ) ≠ 0 := by
    have : obs.length ≠ 0 := fun h0 => hne (List.length_eq_zero.mp h0)
    exact_mod_cast this
  obtain ⟨hrate, havg, habs⟩ := h.quotients hne
  refine ⟨hsteps, h.time, h.gap, h.gapAbs, h.extrema hne, ?_, ?_, ?_⟩
  · rw [havg, h.time, hsteps]
    exact F64.div_fin _ _ hn
  · rw [habs, h.gapAbs, hsteps]
    exact F64.div_fin _ _ hn
  · intro hsum
    rw [hrate, h.time, hsteps]
    exact F64.div_fin _ _ hsum

/-- Witness of C13: three observations with deltas 1/100, 1/50, 3/100 and gaps
1/100, -1/50, 3/100. -/
theorem foldStats_aggregates_witness :
    (foldStats (finiteObs [(1 / 100, 1 / 100), (1 / 50, -1 / 50), (3 / 100, 3 / 100)])
      (newStats 0)).Steps = 3 ∧
    (foldStats (finiteObs [(1 / 100, 1 / 100), (1 / 50, -1 / 50), (3 / 100, 3 / 100)])
      (newStats 0)).GapMin = F64.fin (-1 / 50) ∧
    (foldStats (finiteObs [(1 / 100, 1 / 100), (1 / 50, -1 / 50), (3 / 100, 3 / 100)])
      (newStats 0)).StepRate = F64.fin 50 :=
  ⟨(foldStats_aggregates 0 [(1 / 100, 1 / 100), (1 / 50, -1 / 50), (3 / 100, 3 / 100)]
      (by simp) (by simp)).1,
   by decide!, by decide!⟩

theorem list_sum_ge (l : List ℚ) (a : ℚ) (h : ∀ x ∈ l, a ≤ x) :
    (l.length : ℚ) * a ≤ l.sum := by
  induction l with
  | nil => simp
  | cons x rest ih =>
    have h1 : a ≤ x := h x (List.mem_cons_self _ _)
    have h2 := ih (fun y hy => h y (List.mem_cons_of_mem _ hy))
    simp only [List.length_cons, List.sum_cons, Nat.cast_add, Nat.cast_one]
    linarith

theorem list_sum_le (l : List ℚ) (b : ℚ) (h : ∀ x ∈ l, x ≤ b) :
    l.sum ≤ (l.length : ℚ) * b := by
  induction l with
  | nil => simp
  | cons x rest ih =>
    have h1 : x ≤ b := h x (List.mem_cons_self _ _)
    have h2 := ih (fun y hy => h y (List.mem_cons_of_mem _ hy))
    simp only [List.length_cons, List.sum_cons, Nat.cast_add, Nat.cast_one]
    linarith

theorem list_abs_sum_le (l : List ℚ) : |l.sum| ≤ (l.map (fun x => |x|)).sum := by
  induction l with
  | nil => simp
  | cons x rest ih =>
    simp only [List.sum_cons, List.map_cons]
    exact le_trans (abs_add x rest.sum) (by linarith)

theorem list_abs_sum_nonneg (l : List ℚ) : 0 ≤ (l.map (fun x => |x|)).sum := by
  induction l with
  | nil => simp
  | cons x rest ih =>
    simp only [List.sum_cons, List.map_cons]
    exact add_nonneg (abs_nonneg x) ih

/-- C19: for an accumulator obtained from a fresh one by folding a non-empty sequence of
fewer than `2 ^ 64` finite observations, in exact arithmetic, the mean gap
`GapAccum / Steps` lies between `GapMin` and `GapMax` (so `GapMin <= GapMax`),
`|GapAccum| <= GapAbsAccum`, and `GapAbsAverage >= 0`. -/
theorem foldStats_bounds (now : Time) (obs : List (ℚ × ℚ))
    (hne : obs ≠ []) (hlen : obs.length < 2 ^ 64) :
    F64.le (foldStats (finiteObs obs) (newStats now)).GapMin
      (F64.div (foldStats (finiteObs obs) (newStats now)).GapAccum
        (F64.ofNat (foldStats (finiteObs obs) (newStats now)).Steps)) = true ∧
    F64.le
      (F64.div (foldStats (finiteObs obs) (newStats now)).GapAccum
        (F64.ofNat (foldStats (finiteObs obs) (newStats now)).Steps))
      (foldStats (finiteObs obs) (newStats now)).GapMax = true ∧
    F64.le (foldStats (finiteObs obs) (newStats now)).GapMin
      (foldStats (finiteObs obs) (newStats now)).GapMax = true ∧
    F64.le (F64.abs (foldStats (finiteObs obs) (newStats now)).GapAccum)
      (foldStats (finiteObs obs) (newStats now)).GapAbsAccum = true ∧
    F64.le (F64.fin 0) (foldStats (finiteObs obs) (newStats now)).GapAbsAverage = true := by
  have h := foldStats_Folded now obs
  have hsteps : (foldStats (finiteObs obs) (newStats now)).Steps = obs.length := by
    rw [h.steps]; exact Nat.mod_eq_of_lt hlen
  have hn0 : obs.length ≠ 0 := fun h0 => hne (List.length_eq_zero.mp h0)
  have hn : (obs.length : ℚ) ≠ 0 := by exact_mod_cast hn0
  have hnpos : (0 : ℚ) < obs.length := by
    have : 0 < obs.length := Nat.pos_of_ne_zero hn0
    exact_mod_cast this
  obtain ⟨gmax, gmin, hmax, hmin, hmaxin, _, hall⟩ := h.extrema hne
  obtain ⟨_, _, habs⟩ := h.quotients hne
  have hlo := list_sum_ge (obs.map Prod.snd) gmin (fun g hg => (hall g hg).1)
  have hhi := list_sum_le (obs.map Prod.snd) gmax (fun g hg => (hall g hg).2)
  rw [List.length_map] at hlo hhi
  have hmean : F64.div (foldStats (finiteObs obs) (newStats now)).GapAccum
      (F64.ofNat (foldStats (finiteObs obs) (newStats now)).Steps) =
      F64.fin ((obs.map Prod.snd).sum / obs.length) := by
    rw [h.gap, hsteps]
    exact F64.div_fin _ _ hn
  have habsmap : obs.map (fun o => |o.2|) = (obs.map Prod.snd).map (fun x => |x|) := by
    rw [List.map_map]; rfl
  rw [hmean, hmax, hmin, habs, h.gap, h.gapAbs, hsteps]
  refine ⟨?_, ?_, ?_, ?_, ?_⟩
  · rw [F64.le_fin, le_div_iff₀ hnpos]
    linarith
  · rw [F64.le_fin, div_le_iff₀ hnpos]
    linarith
  · rw [F64.le_fin]
    exact (hall gmax hmaxin).1
  · show F64.le (F64.fin |(obs.map Prod.snd).sum|) _ = true
    rw [F64.le_fin, habsmap]
    exact list_abs_sum_le _
  · show F64.le (F64.fin 0) (F64.div (F64.fin _) (F64.fin (obs.length : ℚ))) = true
    rw [F64.div_fin _ _ hn, F64.le_fin, habsmap]
    exact div_nonneg (list_abs_sum_nonneg _) (le_of_lt hnpos)

/-- Witness of C19: three observations with gaps 1/100, -1/50 and 3/100. -/
theorem foldStats_bounds_witness :
    F64.le (foldStats (finiteObs [(1 / 100, 1 / 100), (1 / 50, -1 / 50), (3 / 100, 3 / 100)])
        (newStats 0)).GapMin
      (foldStats (finiteObs [(1 / 100, 1 / 100), (1 / 50, -1 / 50), (3 / 100, 3 / 100)])
        (newStats 0)).GapMax = true ∧
    (foldStats (finiteObs [(1 / 100, 1 / 100), (1 / 50, -1 / 50), (3 / 100, 3 / 100)])
        (newStats 0)).GapAbsAccum = F64.fin (3 / 50) :=
  ⟨(foldStats_bounds 0 [(1 / 100, 1 / 100), (1 / 50, -1 / 50), (3 / 100, 3 / 100)]
      (by simp) (by simp)).2.2.1,
   by decide!⟩

/-! ## Defaulted configurations -/

theorem defaults_Context_ne_none (c : FixedTimestepConfig) : (defaults c).Context ≠ none := by
  by_cases h1 : c.Context = none
    <;> by_cases h2 : F64.lt c.DesiredTimestep MinimumTimestep = true
    <;> by_cases h3 : F64.le c.AcceptableError (F64.fin 0) = true
    <;> simp [defaults, h1, h2, h3]

theorem defaults_not_lt (c : FixedTimestepConfig) :
    F64.lt (defaults c).DesiredTimestep MinimumTimestep = false := by
  rw [defaults_DesiredTimestep]
  by_cases h : F64.lt c.DesiredTimestep MinimumTimestep = true
  · rw [if_pos h]; decide!
  · rw [if_neg h]; simpa using h

theorem default_error_not_le (d : F64) (hd : F64.lt d MinimumTimestep = false) :
    F64.le (F64.mul DefaultAcceptableErrorRate d) (F64.fin 0) = false := by
  cases d with
  | nan => rfl
  | ninf => exact absurd hd (by decide)
  | pinf => decide!
  | fin q =>
    have hq : ¬ q < 1 / 1000000000 := by
      intro hlt
      rw [(lt_MinimumTimestep q).mpr hlt] at hd
      cases hd
    have hpos : (0 : ℚ) < 1 / 1000 * q := by
      have : (0 : ℚ) < q := lt_of_lt_of_le (by norm_num) (le_of_not_lt hq)
      positivity
    show F64.le (F64.fin (1 / 1000 * q)) (F64.fin 0) = false
    cases hle : F64.le (F64.fin (1 / 1000 * q)) (F64.fin 0) with
    | false => rfl
    | true => exact absurd ((F64.le_fin _ _).mp hle) (not_le.mpr hpos)

theorem defaults_not_le (c : FixedTimestepConfig) :
    F64.le (defaults c).AcceptableError (F64.fin 0) = false := by
  rw [defaults_AcceptableError]
  by_cases h : F64.le c.AcceptableError (F64.fin 0) = true
  · rw [if_pos h]
    exact default_error_not_le _ (defaults_not_lt c)
  · rw [if_neg h]; simpa using h

/-- A configuration that needs no defaulting is left as it is by `defaults`. -/
theorem defaults_fixed (c : FixedTimestepConfig) (h1 : c.Context ≠ none)
    (h2 : F64.lt c.DesiredTimestep MinimumTimestep = false)
    (h3 : F64.le c.AcceptableError (F64.fin 0) = false) : defaults c = c := by
  simp [defaults, h1, h2, h3]

theorem defaults_defaults (c : FixedTimestepConfig) : defaults (defaults c) = defaults c :=
  defaults_fixed _ (defaults_Context_ne_none c) (defaults_not_lt c) (defaults_not_le c)

/-- The `Paused` flag plays no part in `defaults`. -/
theorem defaults_fixed_Paused (c : FixedTimestepConfig) (b : Bool) (h : defaults c = c) :
    defaults { c with Paused := b } = { c with Paused := b } := by
  have h1 : c.Context ≠ none := by rw [← h]; exact defaults_Context_ne_none c
  have h2 : F64.lt c.DesiredTimestep MinimumTimestep = false := by
    rw [← h]; exact defaults_not_lt c
  have h3 : F64.le c.AcceptableError (F64.fin 0) = false := by
    rw [← h]; exact defaults_not_le c
  exact defaults_fixed _ h1 h2 h3

/-- The heart of C16: for a defaulted configuration whose period fits `int64`, the
timestep is at least `MinimumTimestep` and the period passed to `time.NewTicker` is at
least one nanosecond. -/
theorem period_pos_of_fits (c : FixedTimestepConfig)
    (hlt : F64.lt c.DesiredTimestep MinimumTimestep = false)
    (hfit : F64.fitsInt64 (periodSeconds c)) :
    F64.le MinimumTimestep c.DesiredTimestep = true ∧
    1 ≤ F64.toInt64 (periodSeconds c) := by
  obtain ⟨q, hq, hlo, hhi⟩ := hfit
  cases hd : c.DesiredTimestep with
  | nan =>
    unfold periodSeconds at hq
    rw [hd] at hq
    cases hq
  | ninf =>
    rw [hd] at hlt
    exact absurd hlt (by decide)
  | pinf =>
    unfold periodSeconds at hq
    rw [hd] at hq
    have : F64.mul F64.pinf (F64.ofInt Second) = F64.pinf := by decide!
    rw [this] at hq
    cases hq
  | fin d =>
    rw [hd] at hlt
    have hd1 : (1 : ℚ) / 1000000000 ≤ d := by
      by_contra hcon
      rw [(lt_MinimumTimestep d).mpr (lt_of_not_le hcon)] at hlt
      cases hlt
    have hqd : q = d * 1000000000 := by
      unfold periodSeconds at hq
      rw [hd] at hq
      have h2 : F64.mul (F64.fin d) (F64.ofInt Second) = F64.fin (d * ((1000000000 : Int) : ℚ)) :=
        rfl
      rw [h2] at hq
      have h3 := F64.fin.inj hq
      rw [← h3]
      norm_num
    have hq1 : (1 : ℚ) ≤ q := by rw [hqd]; linarith
    have hq0 : (0 : ℚ) ≤ q := le_trans (by norm_num) hq1
    rw [if_pos hq0] at hlo hhi
    have hfl : (1 : Int) ≤ Rat.floor q := Rat.le_floor.mpr (by exact_mod_cast hq1)
    refine ⟨(MinimumTimestep_le d).mpr hd1, ?_⟩
    rw [hq]
    show 1 ≤ (if -(2 : Int) ^ 63 ≤ (if 0 ≤ q then Rat.floor q else Rat.ceil q) ∧
      (if 0 ≤ q then Rat.floor q else Rat.ceil q) < (2 : Int) ^ 63
      then (if 0 ≤ q then Rat.floor q else Rat.ceil q) else -(2 : Int) ^ 63)
    rw [if_pos hq0, if_pos ⟨hlo, hhi⟩]
    exact hfl

theorem endStep_Config (ts : FixedTimestep) : (endStep ts).Config = ts.Config := by
  unfold endStep; rfl

theorem endStep_ticker (ts : FixedTimestep) : (endStep ts).ticker = ts.ticker := by
  unfold endStep; rfl

theorem stopTicker_Config (ts : FixedTimestep) : (stopTicker ts).Config = ts.Config := by
  unfold stopTicker; rfl

theorem stopTicker_period (ts : FixedTimestep) (t : Ticker)
    (h : (stopTicker ts).ticker = some t) :
    ∃ u, ts.ticker = some u ∧ t.period = u.period := by
  unfold stopTicker at h
  cases hu : ts.ticker with
  | none => rw [hu] at h; cases h
  | some u =>
    rw [hu] at h
    have h2 : ({ u with stopped := true } : Ticker) = t := Option.some.inj h
    exact ⟨u, rfl, by rw [← h2]⟩

/-- A step leaves the active configuration as it is, or sets its `Paused` flag. -/
theorem playStep_Config (f : FixedTimestepFunc) (m : Machine) (now : Time) :
    (playStep f m now).ts.Config = m.ts.Config ∨
    (playStep f m now).ts.Config = { m.ts.Config with Paused := true } := by
  by_cases h : f (beginStep m.ts now) = []
  · rw [playStep_quiet f m now h]
    split
    · right
      show (stopTicker _).Config = _
      rw [stopTicker_Config]
      show ({ (endStep (beginStep m.ts now)).Config with Paused := true } :
        FixedTimestepConfig) = _
      rw [endStep_Config, beginStep_Config]
    · left
      show (endStep (beginStep m.ts now)).Config = _
      rw [endStep_Config, beginStep_Config]
  · rw [playStep_blocked f m now h]
    left
    exact beginStep_Config _ _

theorem playStep_period (f : FixedTimestepFunc) (m : Machine) (now : Time) (t : Ticker)
    (ht : (playStep f m now).ts.ticker = some t) :
    ∃ u, m.ts.ticker = some u ∧ t.period = u.period := by
  by_cases h : f (beginStep m.ts now) = []
  · rw [playStep_quiet f m now h] at ht
    split at ht
    · obtain ⟨u, hu, hp⟩ := stopTicker_period _ t ht
      have hu2 : (endStep (beginStep m.ts now)).ticker = some u := hu
      rw [endStep_ticker, beginStep_ticker] at hu2
      exact ⟨u, hu2, hp⟩
    · have ht2 : (endStep (beginStep m.ts now)).ticker = some t := ht
      rw [endStep_ticker, beginStep_ticker] at ht2
      exact ⟨t, ht2, rfl⟩
  · rw [playStep_blocked f m now h] at ht
    have ht2 : (beginStep m.ts now).ticker = some t := ht
    rw [beginStep_ticker] at ht2
    exact ⟨t, ht2, rfl⟩

theorem playStep_ConfigInv (f : FixedTimestepFunc) (m : Machine) (now : Time)
    (hfix : defaults m.ts.Config = m.ts.Config)
    (hper : ∀ t, m.ts.ticker = some t → 1 ≤ t.period) : ConfigInv (playStep f m now) := by
  refine ⟨?_, ?_, ?_⟩
  · rcases playStep_Config f m now with h | h
    · rw [h]; exact hfix
    · rw [h]; exact defaults_fixed_Paused _ true hfix
  · intro t ht
    obtain ⟨u, hu, hp⟩ := playStep_period f m now t ht
    rw [hp]
    exact hper u hu
  · intro hl
    rcases playStep_loc f m now with h | h | h <;> rw [h] at hl <;> cases hl

theorem enterPlaying_ConfigInv (f : FixedTimestepFunc) (m : Machine) (now : Time)
    (hfix : defaults m.ts.Config = m.ts.Config)
    (hper : ∀ t, m.ts.ticker = some t → 1 ≤ t.period) :
    ConfigInv (enterPlaying f m now) := by
  unfold enterPlaying
  simp only []
  split
  · rename_i hd
    have hd2 : F64.toInt64 (F64.mul m.ts.Config.DesiredTimestep (F64.ofInt Second)) ≤ 0 := hd
    refine ⟨hfix, hper, ?_⟩
    intro _ hfit
    have hlt : F64.lt m.ts.Config.DesiredTimestep MinimumTimestep = false := by
      rw [← hfix]; exact defaults_not_lt _
    have h1 := (period_pos_of_fits m.ts.Config hlt hfit).2
    unfold periodSeconds at h1
    omega
  · rename_i hd
    have hd2 : ¬ F64.toInt64 (F64.mul m.ts.Config.DesiredTimestep (F64.ofInt Second)) ≤ 0 :=
      hd
    refine playStep_ConfigInv f _ now hfix ?_
    intro t ht
    have h2 : Ticker.mk
        (F64.toInt64 (F64.mul m.ts.Config.DesiredTimestep (F64.ofInt Second))) false = t :=
      Option.some.inj ht
    rw [← h2]
    show 1 ≤ F64.toInt64 (F64.mul m.ts.Config.DesiredTimestep (F64.ofInt Second))
    omega

theorem runLoop_ConfigInv (f : FixedTimestepFunc) (m : Machine) (now : Time)
    (hfix : defaults m.ts.Config = m.ts.Config)
    (hper : ∀ t, m.ts.ticker = some t → 1 ≤ t.period) : ConfigInv (runLoop f m now) := by
  unfold runLoop
  split
  · exact ⟨hfix, hper, fun h => by cases h⟩
  · exact enterPlaying_ConfigInv f m now hfix hper

theorem step_ConfigInv (f : FixedTimestepFunc) (m : Machine) (i : Input)
    (hm : ConfigInv m) : ConfigInv (step f m i) := by
  have hstop : ∀ t, (stopTicker m.ts).ticker = some t → 1 ≤ t.period := by
    intro t ht
    obtain ⟨u, hu, hp⟩ := stopTicker_period _ t ht
    rw [hp]; exact hm.period u hu
  unfold step
  split
  · split
    · refine ⟨?_, ?_, fun h => by rw [exitLoop_loc] at h; cases h⟩
      · rw [exitLoop_ts]; exact hm.fixed
      · rw [exitLoop_ts]; exact hm.period
    · exact runLoop_ConfigInv f _ _ (defaults_defaults _) hm.period
    · exact hm
  · split
    · refine ⟨?_, ?_, fun h => by rw [exitLoop_loc] at h; cases h⟩
      · rw [exitLoop_ts]
        show defaults (stopTicker m.ts).Config = (stopTicker m.ts).Config
        rw [stopTicker_Config]; exact hm.fixed
      · rw [exitLoop_ts]; exact hstop
    · refine runLoop_ConfigInv f _ _ ?_ ?_
      · show defaults (stopTicker _).Config = (stopTicker _).Config
        rw [stopTicker_Config]
        exact defaults_defaults _
      · intro t ht
        obtain ⟨u, hu, hp⟩ := stopTicker_period _ t ht
        rw [hp]; exact hm.period u hu
    · exact playStep_ConfigInv f m _ hm.fixed hm.period
  · exact hm

theorem run_ConfigInv (f : FixedTimestepFunc) (ins : List Input) :
    ∀ m : Machine, ConfigInv m → ConfigInv (run f m ins) := by
  induction ins with
  | nil => intro m hm; exact hm
  | cons i rest ih => intro m hm; rw [run_cons]; exact ih _ (step_ConfigInv f m i hm)

theorem reachable_ConfigInv (config : FixedTimestepConfig) (f : FixedTimestepFunc)
    (now : Time) (ins : List Input) : ConfigInv (run f (NewWithConfig config f now) ins) := by
  apply run_ConfigInv
  unfold NewWithConfig
  exact runLoop_ConfigInv f _ now (defaults_defaults config) (fun t ht => by cases ht)

/-- C16: in every run the active configuration is one that `defaults` has been applied to
(defaulting it again changes nothing).  Hence, when the period `DesiredTimestep x 10^9`
fits a signed 64-bit count of nanoseconds, `DesiredTimestep >= MinimumTimestep` and the
period truncated to whole nanoseconds is at least 1; every ticker the loop has created
has a period of at least 1; and `time.NewTicker` has panicked only on a period that does
not fit. -/
theorem active_config_defaulted (config : FixedTimestepConfig) (f : FixedTimestepFunc)
    (now : Time) (ins : List Input) :
    defaults (run f (NewWithConfig config f now) ins).ts.Config =
      (run f (NewWithConfig config f now) ins).ts.Config ∧
    (F64.fitsInt64 (periodSeconds (run f (NewWithConfig config f now) ins).ts.Config) →
      F64.ge (run f (NewWithConfig config f now) ins).ts.Config.DesiredTimestep
        MinimumTimestep = true ∧
      1 ≤ F64.toInt64
        (periodSeconds (run f (NewWithConfig config f now) ins).ts.Config)) ∧
    (∀ t, (run f (NewWithConfig config f now) ins).ts.ticker = some t → 1 ≤ t.period) ∧
    ((run f (NewWithConfig config f now) ins).loc = Loc.panicked →
      ¬ F64.fitsInt64 (periodSeconds (run f (NewWithConfig config f now) ins).ts.Config)) := by
  have h := reachable_ConfigInv config f now ins
  refine ⟨h.fixed, ?_, h.period, h.panicked⟩
  intro hfit
  have hlt : F64.lt (run f (NewWithConfig config f now) ins).ts.Config.DesiredTimestep
      MinimumTimestep = false := by
    rw [← h.fixed]; exact defaults_not_lt _
  exact period_pos_of_fits _ hlt hfit

/-- Witness of C16: a zero timestep at construction is clamped to a nanosecond, and the
ticker of the first phase has a period of one nanosecond. -/
theorem active_config_defaulted_witness :
    (run quiet (New (F64.fin 0) quiet 1000) [Input.mk Stimulus.tick 2000]).ts.ticker
      = some (Ticker.mk 1 false) ∧
    1 ≤ F64.toInt64
      (periodSeconds (run quiet (New (F64.fin 0) quiet 1000)
        [Input.mk Stimulus.tick 2000]).ts.Config) :=
  ⟨by decide!,
   ((active_config_defaulted
      { Paused := false, DesiredTimestep := F64.fin 0, AcceptableError := F64.fin 0,
        StepsUntilPause := 0, Context := none, WaitGroup := none } quiet 1000
      [Input.mk Stimulus.tick 2000]).2.1
      ⟨1, by decide!, by decide!, by decide!⟩).2⟩

theorem runLoop_Config (f : FixedTimestepFunc) (m : Machine) (now : Time) :
    (runLoop f m now).ts.Config = m.ts.Config ∨
    (runLoop f m now).ts.Config = { m.ts.Config with Paused := true } := by
  unfold runLoop
  split
  · left; rfl
  · unfold enterPlaying
    simp only []
    split
    · left; rfl
    · exact playStep_Config f _ now

/-- A step leaves the active configuration as it is, sets its `Paused` flag, or adopts
the defaulted configuration it receives (and may set the `Paused` flag of that one). -/
theorem step_Config (f : FixedTimestepFunc) (m : Machine) (i : Input) :
    ((step f m i).ts.Config = m.ts.Config ∨
      (step f m i).ts.Config = { m.ts.Config with Paused := true }) ∨
    ∃ c, i.stim = Stimulus.reconfig c ∧
      ((step f m i).ts.Config = defaults c ∨
        (step f m i).ts.Config = { defaults c with Paused := true }) := by
  unfold step
  split
  · split
    · left; left; rw [exitLoop_ts]
    · rename_i c hc
      right
      exact ⟨c, hc, runLoop_Config f _ _⟩
    · left; left; rfl
  · split
    · left; left; rw [exitLoop_ts]; exact stopTicker_Config _
    · rename_i c hc
      right
      refine ⟨c, hc, ?_⟩
      have h := runLoop_Config f
        { m with ts := stopTicker { m.ts with Config := defaults c } } i.now
      have hc2 : (stopTicker { m.ts with Config := defaults c }).Config = defaults c :=
        stopTicker_Config _
      rw [show ({ m with ts := stopTicker { m.ts with Config := defaults c } } :
        Machine).ts.Config = defaults c from hc2] at h
      exact h
    · left; exact playStep_Config f m _
  · left; left; rfl

/-- In every run the active configuration is the defaulted form of the configuration
passed at construction or of one received since, possibly with `Paused` set. -/
theorem run_Config_origin (config : FixedTimestepConfig) (f : FixedTimestepFunc)
    (now : Time) (ins : List Input) :
    ∃ c, (c = config ∨ ∃ i ∈ ins, i.stim = Stimulus.reconfig c) ∧
      ((run f (NewWithConfig config f now) ins).ts.Config = defaults c ∨
        (run f (NewWithConfig config f now) ins).ts.Config =
          { defaults c with Paused := true }) := by
  induction ins using List.reverseRecOn with
  | nil =>
    refine ⟨config, Or.inl rfl, ?_⟩
    show (NewWithConfig config f now).ts.Config = _ ∨ _
    unfold NewWithConfig
    exact runLoop_Config f _ now
  | append_singleton l i ih =>
    obtain ⟨c, hc, hcfg⟩ := ih
    have hrun : run f (NewWithConfig config f now) (l ++ [i]) =
        step f (run f (NewWithConfig config f now) l) i := by
      rw [run_append]; rfl
    rw [hrun]
    have hc2 : c = config ∨ ∃ j ∈ l ++ [i], j.stim = Stimulus.reconfig c := by
      rcases hc with h | ⟨j, hj, hjs⟩
      · exact Or.inl h
      · exact Or.inr ⟨j, List.mem_append_left _ hj, hjs⟩
    rcases step_Config f (run f (NewWithConfig config f now) l) i with (h | h) | ⟨c2, hi, h⟩
    · rw [h]; exact ⟨c, hc2, hcfg⟩
    · rw [h]
      refine ⟨c, hc2, Or.inr ?_⟩
      rcases hcfg with h2 | h2 <;> rw [h2]
    · exact ⟨c2, Or.inr ⟨i, by simp, hi⟩, h⟩

/-- C20, as stated, fails for the flag `Paused`: a configuration object with a budget of
one step is passed to `NewWithConfig`; after its first step the loop pauses itself and
sets `Paused` in that object, which is the active configuration.  Passed again to
`Update`, the object is adopted with `Paused = true` and the loop stays paused, although
after the first defaulting it held `Paused = false`, values with which the loop plays. -/
theorem reused_config_stays_paused :
    (defaults (budgetConfig 1)).Paused = false ∧
    (NewWithConfig (budgetConfig 1) quiet 1000).ts.Config.Paused = true ∧
    (step quiet (NewWithConfig (budgetConfig 1) quiet 1000)
      (Input.mk (Stimulus.reconfig (NewWithConfig (budgetConfig 1) quiet 1000).ts.Config)
        2000)).ts.Config.Paused = true ∧
    (step quiet (NewWithConfig (budgetConfig 1) quiet 1000)
      (Input.mk (Stimulus.reconfig (NewWithConfig (budgetConfig 1) quiet 1000).ts.Config)
        2000)).calls.length = 1 ∧
    (step quiet (NewWithConfig (budgetConfig 1) quiet 1000)
      (Input.mk (Stimulus.reconfig (defaults (budgetConfig 1))) 2000)).calls.length = 2 := by
  decide!

/-- C20, amended: `defaults` is idempotent, `defaults (defaults c) = defaults c` for every
configuration `c`; in every run the active configuration is left as it is by `defaults`,
so an object that is the active configuration and is passed again is adopted with the
values it holds; and these are the values of the first defaulting of the configuration
passed at construction or received since, except that `Paused` may have been set by an
automatic pause. -/
theorem defaults_idempotent (c config : FixedTimestepConfig) (f : FixedTimestepFunc)
    (now : Time) (ins : List Input) :
    defaults (defaults c) = defaults c ∧
    defaults (run f (NewWithConfig config f now) ins).ts.Config =
      (run f (NewWithConfig config f now) ins).ts.Config ∧
    ∃ c0, (c0 = config ∨ ∃ i ∈ ins, i.stim = Stimulus.reconfig c0) ∧
      ((run f (NewWithConfig config f now) ins).ts.Config = defaults c0 ∨
        (run f (NewWithConfig config f now) ins).ts.Config =
          { defaults c0 with Paused := true }) :=
  ⟨defaults_defaults c, (reachable_ConfigInv config f now ins).fixed,
    run_Config_origin config f now ins⟩

/-! ## The paused state -/

/-- C11: in every run, while the loop waits in the paused state the active configuration
has `Paused = true`; a tick is not received there; the cancellation leads to `stopped`
without a callback invocation; a reconfiguration is defaulted, adopted and its `Paused`
flag evaluated by `runLoop`: with `Paused = true` the loop waits again without a callback
invocation, with `Paused = false` and a timer that can be armed the callback is invoked at
once; and no callback is invoked as long as no reconfiguration with `Paused = false` is
received.  A controller built with `Paused = true` starts in the paused state without a
callback invocation. -/
theorem paused_waits_for_resume (config : FixedTimestepConfig) (f : FixedTimestepFunc)
    (now : Time) (ins : List Input) (i : Input) (rest : List Input)
    (hm : (run f (NewWithConfig config f now) ins).loc = Loc.pausedWait) :
    (run f (NewWithConfig config f now) ins).ts.Config.Paused = true ∧
    (i.stim = Stimulus.tick →
      step f (run f (NewWithConfig config f now) ins) i =
        run f (NewWithConfig config f now) ins) ∧
    (i.stim = Stimulus.cancel →
      (step f (run f (NewWithConfig config f now) ins) i).loc = Loc.stopped ∧
      (step f (run f (NewWithConfig config f now) ins) i).calls =
        (run f (NewWithConfig config f now) ins).calls) ∧
    (∀ c, i.stim = Stimulus.reconfig c → c.Paused = true →
      (step f (run f (NewWithConfig config f now) ins) i).loc = Loc.pausedWait ∧
      (step f (run f (NewWithConfig config f now) ins) i).ts.Config = defaults c ∧
      (step f (run f (NewWithConfig config f now) ins) i).calls =
        (run f (NewWithConfig config f now) ins).calls) ∧
    (∀ c, i.stim = Stimulus.reconfig c → c.Paused = false →
      0 < F64.toInt64 (periodSeconds (defaults c)) →
      (step f (run f (NewWithConfig config f now) ins) i).calls.length =
        (run f (NewWithConfig config f now) ins).calls.length + 1) ∧
    ((∀ j ∈ rest, ∀ c, j.stim = Stimulus.reconfig c → c.Paused = true) →
      (run f (run f (NewWithConfig config f now) ins) rest).calls =
        (run f (NewWithConfig config f now) ins).calls) ∧
    (config.Paused = true →
      (NewWithConfig config f now).loc = Loc.pausedWait ∧
      (NewWithConfig config f now).calls = []) := by
  have hinv := reachable_Inv config f now ins
  generalize run f (NewWithConfig config f now) ins = m at *
  refine ⟨(hinv.paused hm).1, ?_, ?_, ?_, ?_, paused_no_calls f rest m hm, ?_⟩
  · intro hi
    unfold step; rw [hm]; simp only [hi]
  · intro hi
    have hs : step f m i = exitLoop m := by unfold step; rw [hm]; simp only [hi]
    rw [hs]
    exact ⟨exitLoop_loc m, exitLoop_calls m⟩
  · intro c hi hp
    have hs : step f m i =
        { m with ts := { m.ts with Config := defaults c }, loc := Loc.pausedWait } := by
      unfold step; rw [hm]; simp only [hi]
      unfold runLoop
      simp [defaults_Paused, hp]
    rw [hs]
    exact ⟨rfl, rfl, rfl⟩
  · intro c hi hp hT
    have hs : step f m i =
        runLoop f { m with ts := { m.ts with Config := defaults c } } i.now := by
      unfold step; rw [hm]; simp only [hi]
    have hP : ({ m with ts := { m.ts with Config := defaults c } } : Machine).ts.Config.Paused
        = false := by
      show (defaults c).Paused = false
      rw [defaults_Paused]; exact hp
    have hT2 : 0 < F64.toInt64 (F64.mul
        ({ m with ts := { m.ts with Config := defaults c } } : Machine).ts.Config.DesiredTimestep
        (F64.ofInt Second)) := hT
    rw [hs, runLoop_playing f _ i.now hP hT2, playStep_calls, List.length_append]
    rfl
  · intro hp
    have hs : NewWithConfig config f now =
        { created (defaults config) with loc := Loc.pausedWait } := by
      unfold NewWithConfig runLoop
      have : (created (defaults config)).ts.Config.Paused = true := by
        show (defaults config).Paused = true
        rw [defaults_Paused]; exact hp
      simp [this]
    rw [hs]
    exact ⟨rfl, rfl⟩

/-- Witness of C11: a controller built paused, left paused by a reconfiguration, and
resumed by the next one. -/
theorem paused_waits_for_resume_witness :
    (run quiet (NewWithConfig pausedConfig quiet 1000)
      [Input.mk Stimulus.tick 2000, Input.mk (Stimulus.reconfig pausedConfig) 3000]).calls
      = [] ∧
    (step quiet (run quiet (NewWithConfig pausedConfig quiet 1000)
      [Input.mk Stimulus.tick 2000, Input.mk (Stimulus.reconfig pausedConfig) 3000])
      (Input.mk (Stimulus.reconfig (playConfig none)) 4000)).calls.length = 1 := by
  have h := paused_waits_for_resume pausedConfig quiet 1000
    [Input.mk Stimulus.tick 2000, Input.mk (Stimulus.reconfig pausedConfig) 3000]
    (Input.mk (Stimulus.reconfig (playConfig none)) 4000) [] (by decide!)
  refine ⟨by decide!, ?_⟩
  rw [h.2.2.2.2.1 (playConfig none) rfl rfl (by decide!)]
  decide!

/-! ## A phase without budget -/

theorem endStep_StepsUntilPause (ts : FixedTimestep) :
    (endStep ts).StepsUntilPause = (ts.StepsUntilPause + (2 ^ 64 - 1)) % 2 ^ 64 := by
  unfold endStep; rfl

/-- With `StepsUntilPause = 0` in the active configuration a step never takes the branch
of the automatic pause, whatever the counter `StepsUntilPause` of the controller holds. -/
theorem playStep_unbounded (f : FixedTimestepFunc) (m : Machine) (now : Time)
    (hf : ∀ ts, f ts = []) (hN : m.ts.Config.StepsUntilPause = 0) :
    playStep f m now =
      { m with ts := endStep (beginStep m.ts now), index := m.index + 1,
               loc := Loc.checkpoint
               calls := m.calls ++ [Call.mk m.phase (m.index + 1) (beginStep m.ts now)] } := by
  have hc : (endStep (beginStep m.ts now)).Config.StepsUntilPause = 0 := by
    rw [endStep_Config, beginStep_Config]; exact hN
  rw [playStep_quiet f m now (hf _), if_neg]
  rw [hc]
  simp

theorem unbounded_run (f : FixedTimestepFunc) (hf : ∀ ts, f ts = []) (nows : List Time) :
    ∀ m : Machine, m.loc = Loc.checkpoint → m.ts.Config.StepsUntilPause = 0 →
      m.ts.StepsUntilPause < 2 ^ 64 →
      (run f m (ticks nows)).loc = Loc.checkpoint ∧
      (run f m (ticks nows)).calls.length = m.calls.length + nows.length ∧
      (run f m (ticks nows)).phase = m.phase ∧
      (run f m (ticks nows)).ts.Config = m.ts.Config ∧
      (run f m (ticks nows)).ts.ticker = m.ts.ticker ∧
      (run f m (ticks nows)).ts.StepsUntilPause =
        (m.ts.StepsUntilPause + nows.length * (2 ^ 64 - 1)) % 2 ^ 64 := by
  induction nows with
  | nil =>
    intro m hl hN h64
    refine ⟨hl, rfl, rfl, rfl, rfl, ?_⟩
    show m.ts.StepsUntilPause = _
    simp only [List.length_nil]
    omega
  | cons t rest ih =>
    intro m hl hN h64
    have hstep : step f m (Input.mk Stimulus.tick t) = playStep f m t := by
      unfold step; rw [hl]
    have hrun : run f m (ticks (t :: rest)) = run f (playStep f m t) (ticks rest) := by
      show run f m (Input.mk Stimulus.tick t :: ticks rest) = _
      rw [run_cons, hstep]
    have hq := playStep_unbounded f m t hf hN
    have hl2 : (playStep f m t).loc = Loc.checkpoint := by rw [hq]
    have hcfg : (playStep f m t).ts.Config = m.ts.Config := by
      rw [hq]
      show (endStep (beginStep m.ts t)).Config = _
      rw [endStep_Config, beginStep_Config]
    have htk : (playStep f m t).ts.ticker = m.ts.ticker := by
      rw [hq]
      show (endStep (beginStep m.ts t)).ticker = _
      rw [endStep_ticker, beginStep_ticker]
    have hsup : (playStep f m t).ts.StepsUntilPause =
        (m.ts.StepsUntilPause + (2 ^ 64 - 1)) % 2 ^ 64 := by
      rw [hq]
      show (endStep (beginStep m.ts t)).StepsUntilPause = _
      rw [endStep_StepsUntilPause, beginStep_StepsUntilPause]
    obtain ⟨h1, h2, h3, h4, h5, h6⟩ :=
      ih (playStep f m t) hl2 (by rw [hcfg]; exact hN) (by rw [hsup]; omega)
    rw [hrun]
    refine ⟨h1, ?_, ?_, ?_, ?_, ?_⟩
    · rw [h2, playStep_calls, List.length_append]
      simp only [List.length_cons, List.length_nil]
      omega
    · rw [h3, playStep_phase]
    · rw [h4, hcfg]
    · rw [h5, htk]
    · rw [h6, hsup, List.length_cons]
      omega

/-- C12: a Playing phase whose active configuration has `StepsUntilPause = 0` never pauses
itself.  Entered with a timer that could be armed and run by ticks alone (the callback not
calling `Update`), after any number `n` of ticks it is still at the checkpoint of the same
phase, with `n + 1` callback invocations, the configuration unchanged (`Paused` false) and
the ticker running; the counter `StepsUntilPause` has been decremented `n + 1` times from
0 modulo `2 ^ 64`; and whatever that counter holds, also when the decrement brings it to
0, a step does not take the branch of the automatic pause. -/
theorem unbounded_phase_never_pauses (f : FixedTimestepFunc) (m : Machine) (now : Time)
    (nows : List Time)
    (hf : ∀ ts, f ts = [])
    (hP : m.ts.Config.Paused = false)
    (hN : m.ts.Config.StepsUntilPause = 0)
    (hT : 0 < F64.toInt64 (F64.mul m.ts.Config.DesiredTimestep (F64.ofInt Second))) :
    (run f (runLoop f m now) (ticks nows)).loc = Loc.checkpoint ∧
    (run f (runLoop f m now) (ticks nows)).calls.length = m.calls.length + nows.length + 1 ∧
    (run f (runLoop f m now) (ticks nows)).phase = m.phase + 1 ∧
    (run f (runLoop f m now) (ticks nows)).ts.Config = m.ts.Config ∧
    tickerArmed (run f (runLoop f m now) (ticks nows)).ts ∧
    (run f (runLoop f m now) (ticks nows)).ts.StepsUntilPause =
      ((nows.length + 1) * (2 ^ 64 - 1)) % 2 ^ 64 ∧
    (∀ (m2 : Machine) (t : Time), m2.ts.Config.StepsUntilPause = 0 →
      (playStep f m2 t).loc = Loc.checkpoint ∧
      (playStep f m2 t).ts.Config = m2.ts.Config) := by
  have hN2 : (phaseEntry m).ts.Config.StepsUntilPause = 0 := hN
  have hq := playStep_unbounded f (phaseEntry m) now hf hN2
  have hl : (playStep f (phaseEntry m) now).loc = Loc.checkpoint := by rw [hq]
  have hcfg : (playStep f (phaseEntry m) now).ts.Config = m.ts.Config := by
    rw [hq]
    show (endStep (beginStep (phaseEntry m).ts now)).Config = _
    rw [endStep_Config, beginStep_Config]
    rfl
  have htk : (playStep f (phaseEntry m) now).ts.ticker = (phaseEntry m).ts.ticker := by
    rw [hq]
    show (endStep (beginStep (phaseEntry m).ts now)).ticker = _
    rw [endStep_ticker, beginStep_ticker]
  have hsup : (playStep f (phaseEntry m) now).ts.StepsUntilPause = 2 ^ 64 - 1 := by
    rw [hq]
    show (endStep (beginStep (phaseEntry m).ts now)).StepsUntilPause = _
    rw [endStep_StepsUntilPause, beginStep_StepsUntilPause]
    show (m.ts.Config.StepsUntilPause + (2 ^ 64 - 1)) % 2 ^ 64 = _
    rw [hN]
    rfl
  obtain ⟨h1, h2, h3, h4, h5, h6⟩ :=
    unbounded_run f hf nows (playStep f (phaseEntry m) now) hl (by rw [hcfg]; exact hN)
      (by rw [hsup]; omega)
  rw [runLoop_playing f m now hP hT]
  refine ⟨h1, ?_, ?_, ?_, ?_, ?_, ?_⟩
  · rw [h2, playStep_calls, List.length_append]
    show m.calls.length + 1 + nows.length = _
    omega
  · rw [h3, playStep_phase]; rfl
  · rw [h4, hcfg]
  · exact ⟨_, by rw [h5, htk]; rfl, rfl, hT⟩
  · rw [h6, hsup]
    omega
  · intro m2 t hN3
    have hq2 := playStep_unbounded f m2 t hf hN3
    refine ⟨by rw [hq2], ?_⟩
    rw [hq2]
    show (endStep (beginStep m2.ts t)).Config = _
    rw [endStep_Config, beginStep_Config]

/-- Witness of C12: three steps of a phase without budget. -/
theorem unbounded_phase_never_pauses_witness :
    (run quiet (NewWithConfig (playConfig none) quiet 1000) (ticks [2000, 3000])).loc
      = Loc.checkpoint ∧
    (run quiet (NewWithConfig (playConfig none) quiet 1000)
      (ticks [2000, 3000])).ts.StepsUntilPause = 18446744073709551613 :=
  ⟨(unbounded_phase_never_pauses quiet (created (defaults (playConfig none))) 1000
      [2000, 3000] (fun _ => rfl) (by decide!) (by decide!) (by decide!)).1,
   by decide!⟩

/-! ## Gap, Delta and the statistics of the current phase -/

theorem GapIsDelta_beginStep (ts : FixedTimestep) (now : Time) (h : GapIsDelta ts) :
    GapIsDelta (beginStep ts now) := by
  by_cases h0 : ts.lastStepTime = 0
  · rw [beginStep_first ts now h0]
    exact h
  · rw [beginStep_later ts now h0]
    refine ⟨rfl, ?_, ?_⟩
    · show (updateStats _ _ ts.TotalStats).GapAccum = (updateStats _ _ ts.TotalStats).TimeAccum
      rw [updateStats_GapAccum, updateStats_TimeAccum, h.2.1]
    · intro s hs
      cases hc : ts.CurrentStats with
      | none =>
        have hs2 : Option.map (updateStats (Duration.Seconds (Time.Sub now ts.lastStepTime))
            (Duration.Seconds (Time.Sub now ts.lastStepTime))) ts.CurrentStats = some s := hs
        rw [hc] at hs2
        cases hs2
      | some s0 =>
        have hs2 : Option.map (updateStats (Duration.Seconds (Time.Sub now ts.lastStepTime))
            (Duration.Seconds (Time.Sub now ts.lastStepTime))) ts.CurrentStats = some s := hs
        rw [hc] at hs2
        have hs3 := Option.some.inj hs2
        rw [← hs3, updateStats_GapAccum, updateStats_TimeAccum, h.2.2 s0 hc]

theorem endStep_Gap (ts : FixedTimestep) : (endStep ts).Gap = ts.Gap := by
  unfold endStep; rfl

theorem endStep_Delta (ts : FixedTimestep) : (endStep ts).Delta = ts.Delta := by
  unfold endStep; rfl

theorem endStep_CurrentStats (ts : FixedTimestep) :
    (endStep ts).CurrentStats = ts.CurrentStats := by
  unfold endStep; rfl

theorem stopTicker_Gap (ts : FixedTimestep) : (stopTicker ts).Gap = ts.Gap := by
  unfold stopTicker; rfl

theorem stopTicker_Delta (ts : FixedTimestep) : (stopTicker ts).Delta = ts.Delta := by
  unfold stopTicker; rfl

theorem stopTicker_CurrentStats (ts : FixedTimestep) :
    (stopTicker ts).CurrentStats = ts.CurrentStats := by
  unfold stopTicker; rfl

theorem GapIsDelta_congr (ts ts2 : FixedTimestep) (h : GapIsDelta ts)
    (h1 : ts2.Gap = ts.Gap) (h2 : ts2.Delta = ts.Delta)
    (h3 : ts2.TotalStats = ts.TotalStats) (h4 : ts2.CurrentStats = ts.CurrentStats) :
    GapIsDelta ts2 := by
  unfold GapIsDelta
  rw [h1, h2, h3, h4]
  exact h

theorem playStep_Gap (f : FixedTimestepFunc) (m : Machine) (now : Time) :
    (playStep f m now).ts.Gap = (beginStep m.ts now).Gap := by
  by_cases h : f (beginStep m.ts now) = []
  · rw [playStep_quiet f m now h]
    split
    · show (stopTicker _).Gap = _
      rw [stopTicker_Gap]
      show (endStep (beginStep m.ts now)).Gap = _
      rw [endStep_Gap]
    · show (endStep (beginStep m.ts now)).Gap = _
      rw [endStep_Gap]
  · rw [playStep_blocked f m now h]

theorem playStep_Delta (f : FixedTimestepFunc) (m : Machine) (now : Time) :
    (playStep f m now).ts.Delta = (beginStep m.ts now).Delta := by
  by_cases h : f (beginStep m.ts now) = []
  · rw [playStep_quiet f m now h]
    split
    · show (stopTicker _).Delta = _
      rw [stopTicker_Delta]
      show (endStep (beginStep m.ts now)).Delta = _
      rw [endStep_Delta]
    · show (endStep (beginStep m.ts now)).Delta = _
      rw [endStep_Delta]
  · rw [playStep_blocked f m now h]

theorem playStep_CurrentStats (f : FixedTimestepFunc) (m : Machine) (now : Time) :
    (playStep f m now).ts.CurrentStats = (beginStep m.ts now).CurrentStats := by
  by_cases h : f (beginStep m.ts now) = []
  · rw [playStep_quiet f m now h]
    split
    · show (stopTicker _).CurrentStats = _
      rw [stopTicker_CurrentStats]
      show (endStep (beginStep m.ts now)).CurrentStats = _
      rw [endStep_CurrentStats]
    · show (endStep (beginStep m.ts now)).CurrentStats = _
      rw [endStep_CurrentStats]
  · rw [playStep_blocked f m now h]

theorem playStep_PhaseInv (f : FixedTimestepFunc) (m : Machine) (now : Time)
    (hg : GapIsDelta m.ts) (hs : ∀ c ∈ m.calls, GapIsDelta c.seen)
    (hf : ∀ c ∈ m.calls, c.index = 1 → ∃ t, c.seen.CurrentStats = some (newStats t))
    (h0 : m.index = 0 → m.ts.lastStepTime = 0 ∧ ∃ t, m.ts.CurrentStats = some (newStats t)) :
    PhaseInv (playStep f m now) := by
  have hb := GapIsDelta_beginStep m.ts now hg
  refine ⟨?_, ?_, ?_, ?_⟩
  · exact GapIsDelta_congr _ _ hb (playStep_Gap f m now) (playStep_Delta f m now)
      (playStep_TotalStats f m now) (playStep_CurrentStats f m now)
  · intro c hc
    rw [playStep_calls] at hc
    rcases List.mem_append.mp hc with h | h
    · exact hs c h
    · rw [List.mem_singleton] at h
      rw [h]
      exact hb
  · intro c hc hi
    rw [playStep_calls] at hc
    rcases List.mem_append.mp hc with h | h
    · exact hf c h hi
    · rw [List.mem_singleton] at h
      rw [h] at hi ⊢
      have hidx : m.index = 0 := by
        have : m.index + 1 = 1 := hi
        omega
      obtain ⟨hl, t, ht⟩ := h0 hidx
      refine ⟨t, ?_⟩
      show (beginStep m.ts now).CurrentStats = _
      rw [beginStep_first m.ts now hl]
      exact ht
  · intro _
    rw [playStep_index]
    exact Nat.succ_ne_zero _

theorem enterPlaying_PhaseInv (f : FixedTimestepFunc) (m : Machine) (now : Time)
    (hg : GapIsDelta m.ts) (hs : ∀ c ∈ m.calls, GapIsDelta c.seen)
    (hf : ∀ c ∈ m.calls, c.index = 1 → ∃ t, c.seen.CurrentStats = some (newStats t)) :
    PhaseInv (enterPlaying f m now) := by
  have hfresh : ∀ s, some (newStats m.ts.Now) = some s → s.GapAccum = s.TimeAccum := by
    intro s h
    rw [← Option.some.inj h]
    rfl
  unfold enterPlaying
  simp only []
  split
  · exact ⟨⟨hg.1, hg.2.1, hfresh⟩, hs, hf, fun h => by cases h⟩
  · exact playStep_PhaseInv f _ now ⟨hg.1, hg.2.1, hfresh⟩ hs hf
      (fun _ => ⟨rfl, m.ts.Now, rfl⟩)

theorem runLoop_PhaseInv (f : FixedTimestepFunc) (m : Machine) (now : Time)
    (hg : GapIsDelta m.ts) (hs : ∀ c ∈ m.calls, GapIsDelta c.seen)
    (hf : ∀ c ∈ m.calls, c.index = 1 → ∃ t, c.seen.CurrentStats = some (newStats t)) :
    PhaseInv (runLoop f m now) := by
  unfold runLoop
  split
  · exact ⟨hg, hs, hf, fun h => by cases h⟩
  · exact enterPlaying_PhaseInv f m now hg hs hf

theorem step_PhaseInv (f : FixedTimestepFunc) (m : Machine) (i : Input)
    (hm : PhaseInv m) : PhaseInv (step f m i) := by
  have hstop : ∀ ts : FixedTimestep, GapIsDelta ts → GapIsDelta (stopTicker ts) :=
    fun ts h => GapIsDelta_congr _ _ h (stopTicker_Gap ts) (stopTicker_Delta ts)
      (stopTicker_TotalStats ts) (stopTicker_CurrentStats ts)
  unfold step
  split
  · split
    · refine ⟨?_, ?_, ?_, fun h => by rw [exitLoop_loc] at h; cases h⟩
      · rw [exitLoop_ts]; exact hm.gap
      · rw [exitLoop_calls]; exact hm.seenGap
      · rw [exitLoop_calls]; exact hm.seenFresh
    · exact runLoop_PhaseInv f _ _ (GapIsDelta_congr _ _ hm.gap rfl rfl rfl rfl)
        hm.seenGap hm.seenFresh
    · exact hm
  · rename_i hl
    split
    · refine ⟨?_, ?_, ?_, fun h => by rw [exitLoop_loc] at h; cases h⟩
      · rw [exitLoop_ts]; exact hstop _ hm.gap
      · rw [exitLoop_calls]; exact hm.seenGap
      · rw [exitLoop_calls]; exact hm.seenFresh
    · exact runLoop_PhaseInv f _ _
        (hstop _ (GapIsDelta_congr _ _ hm.gap rfl rfl rfl rfl)) hm.seenGap hm.seenFresh
    · exact playStep_PhaseInv f m _ hm.gap hm.seenGap hm.seenFresh
        (fun h0 => absurd h0 (hm.started hl))
  · exact hm

theorem reachable_PhaseInv (config : FixedTimestepConfig) (f : FixedTimestepFunc)
    (now : Time) (ins : List Input) : PhaseInv (run f (NewWithConfig config f now) ins) := by
  have h0 : PhaseInv (NewWithConfig config f now) := by
    unfold NewWithConfig
    refine runLoop_PhaseInv f _ now ⟨rfl, rfl, ?_⟩ ?_ ?_
    · intro s hs; cases hs
    · intro c hc; simp [created] at hc
    · intro c hc; simp [created] at hc
  have hrun : ∀ (l : List Input) (m : Machine), PhaseInv m → PhaseInv (run f m l) := by
    intro l
    induction l with
    | nil => intro m hm; exact hm
    | cons i rest ih => intro m hm; rw [run_cons]; exact ih _ (step_PhaseInv f m i hm)
  exact hrun ins _ h0

theorem enterPlaying_TotalStats (f : FixedTimestepFunc) (m : Machine) (now : Time) :
    (enterPlaying f m now).ts.TotalStats = m.ts.TotalStats := by
  unfold enterPlaying
  simp only []
  split
  · rfl
  · rw [playStep_TotalStats, beginStep_first _ _ rfl]

/-- C14: in every run, the first callback invocation of every Playing phase reads a
`CurrentStats` that is a fresh accumulator, whatever the previous phase left: `Steps` 0,
the three sums 0, `GapMax` minus infinity and `GapMin` plus infinity; and entering a phase
(with its first step) leaves `TotalStats` as it was. -/
theorem first_step_reads_fresh_current_stats (config : FixedTimestepConfig)
    (f : FixedTimestepFunc) (now : Time) (ins : List Input) :
    (∀ c ∈ (run f (NewWithConfig config f now) ins).calls, c.index = 1 →
      ∃ s, c.seen.CurrentStats = some s ∧ (∃ t, s = newStats t) ∧
        s.Steps = 0 ∧ s.TimeAccum = F64.fin 0 ∧ s.GapAccum = F64.fin 0 ∧
        s.GapAbsAccum = F64.fin 0 ∧ s.GapMax = F64.ninf ∧ s.GapMin = F64.pinf) ∧
    (∀ (m : Machine) (t : Time), (enterPlaying f m t).ts.TotalStats = m.ts.TotalStats) := by
  refine ⟨?_, fun m t => enterPlaying_TotalStats f m t⟩
  intro c hc hi
  obtain ⟨t, ht⟩ := (reachable_PhaseInv config f now ins).seenFresh c hc hi
  exact ⟨newStats t, ht, ⟨t, rfl⟩, rfl, rfl, rfl, rfl, rfl, rfl⟩

/-- C15: in every run, every callback invocation reads `Gap = Delta`, and in the
`TotalStats` and the `CurrentStats` it reads `GapAccum = TimeAccum`; the same holds of the
controller at every blocking point of the loop. -/
theorem gap_equals_delta (config : FixedTimestepConfig) (f : FixedTimestepFunc)
    (now : Time) (ins : List Input) :
    (∀ c ∈ (run f (NewWithConfig config f now) ins).calls,
      c.seen.Gap = c.seen.Delta ∧
      c.seen.TotalStats.GapAccum = c.seen.TotalStats.TimeAccum ∧
      ∀ s, c.seen.CurrentStats = some s → s.GapAccum = s.TimeAccum) ∧
    (run f (NewWithConfig config f now) ins).ts.Gap =
      (run f (NewWithConfig config f now) ins).ts.Delta ∧
    (run f (NewWithConfig config f now) ins).ts.TotalStats.GapAccum =
      (run f (NewWithConfig config f now) ins).ts.TotalStats.TimeAccum ∧
    (∀ s, (run f (NewWithConfig config f now) ins).ts.CurrentStats = some s →
      s.GapAccum = s.TimeAccum) := by
  have h := reachable_PhaseInv config f now ins
  exact ⟨h.seenGap, h.gap.1, h.gap.2.1, h.gap.2.2⟩

/-! ## The step counts of both accumulators -/

theorem beginStep_CurrentStats_Steps (ts : FixedTimestep) (now : Time) (index : Nat)
    (h : (index = 0 ∧ ts.lastStepTime = 0 ∧ ∃ s, ts.CurrentStats = some s ∧ s.Steps = 0) ∨
      (index ≠ 0 ∧ ts.lastStepTime ≠ 0 ∧
        ∃ s, ts.CurrentStats = some s ∧ s.Steps = (index - 1) % 2 ^ 64)) :
    ∃ s, (beginStep ts now).CurrentStats = some s ∧ s.Steps = index % 2 ^ 64 := by
  rcases h with ⟨hi, h0, s, hs, hsteps⟩ | ⟨hi, h0, s, hs, hsteps⟩
  · rw [beginStep_first ts now h0]
    exact ⟨s, hs, by rw [hsteps, hi, Nat.zero_mod]⟩
  · rw [beginStep_later ts now h0]
    refine ⟨updateStats (Duration.Seconds (Time.Sub now ts.lastStepTime))
      (Duration.Seconds (Time.Sub now ts.lastStepTime)) s, ?_, ?_⟩
    · show Option.map _ ts.CurrentStats = _
      rw [hs]; rfl
    · rw [updateStats_Steps, hsteps]
      omega

theorem playStep_CurrentInv (f : FixedTimestepFunc) (m : Machine) (now : Time)
    (hnow : now ≠ 0)
    (hseen : ∀ k c, m.calls[k]? = some c → 1 ≤ c.index ∧ c.index ≤ k + 1 ∧
      ∃ s, c.seen.CurrentStats = some s ∧ s.Steps = (c.index - 1) % 2 ^ 64)
    (hidx : m.index ≤ m.calls.length)
    (h : (m.index = 0 ∧ m.ts.lastStepTime = 0 ∧
        ∃ s, m.ts.CurrentStats = some s ∧ s.Steps = 0) ∨
      (m.index ≠ 0 ∧ m.ts.lastStepTime ≠ 0 ∧
        ∃ s, m.ts.CurrentStats = some s ∧ s.Steps = (m.index - 1) % 2 ^ 64)) :
    CurrentInv (playStep f m now) := by
  obtain ⟨s, hs, hsteps⟩ := beginStep_CurrentStats_Steps m.ts now m.index h
  refine ⟨?_, ?_, ?_⟩
  · intro k c hk
    rw [playStep_calls] at hk
    rcases getElem?_concat_cases _ _ _ _ hk with hk2 | ⟨hk2, hc⟩
    · exact hseen k c hk2
    · rw [hc]
      refine ⟨Nat.succ_le_succ (Nat.zero_le _), by show m.index + 1 ≤ k + 1; omega, s, hs, ?_⟩
      show s.Steps = (m.index + 1 - 1) % 2 ^ 64
      rw [hsteps]; rfl
  · rw [playStep_index, playStep_calls, List.length_append]
    simp only [List.length_cons, List.length_nil]
    omega
  · intro hl
    rw [playStep_lastStepTime f m now hl, playStep_index, playStep_CurrentStats]
    exact ⟨hnow, Nat.succ_ne_zero _, s, hs, by rw [hsteps]; rfl⟩

theorem enterPlaying_CurrentInv (f : FixedTimestepFunc) (m : Machine) (now : Time)
    (hnow : now ≠ 0)
    (hseen : ∀ k c, m.calls[k]? = some c → 1 ≤ c.index ∧ c.index ≤ k + 1 ∧
      ∃ s, c.seen.CurrentStats = some s ∧ s.Steps = (c.index - 1) % 2 ^ 64) :
    CurrentInv (enterPlaying f m now) := by
  unfold enterPlaying
  simp only []
  split
  · exact ⟨hseen, Nat.zero_le _, fun h => by cases h⟩
  · exact playStep_CurrentInv f _ now hnow hseen (Nat.zero_le _)
      (Or.inl ⟨rfl, rfl, newStats m.ts.Now, rfl, rfl⟩)

theorem runLoop_CurrentInv (f : FixedTimestepFunc) (m : Machine) (now : Time)
    (hnow : now ≠ 0)
    (hseen : ∀ k c, m.calls[k]? = some c → 1 ≤ c.index ∧ c.index ≤ k + 1 ∧
      ∃ s, c.seen.CurrentStats = some s ∧ s.Steps = (c.index - 1) % 2 ^ 64)
    (hidx : m.index ≤ m.calls.length) :
    CurrentInv (runLoop f m now) := by
  unfold runLoop
  split
  · exact ⟨hseen, hidx, fun h => by cases h⟩
  · exact enterPlaying_CurrentInv f m now hnow hseen

theorem step_CurrentInv (f : FixedTimestepFunc) (m : Machine) (i : Input)
    (hnow : i.now ≠ 0) (hm : CurrentInv m) : CurrentInv (step f m i) := by
  unfold step
  split
  · split
    · exact ⟨by rw [exitLoop_calls]; exact hm.seen,
        by unfold exitLoop; split <;> exact hm.index,
        fun h => by rw [exitLoop_loc] at h; cases h⟩
    · exact runLoop_CurrentInv f _ _ hnow hm.seen hm.index
    · exact hm
  · rename_i hl
    split
    · exact ⟨by rw [exitLoop_calls]; exact hm.seen,
        by unfold exitLoop; split <;> exact hm.index,
        fun h => by rw [exitLoop_loc] at h; cases h⟩
    · exact runLoop_CurrentInv f _ _ hnow hm.seen hm.index
    · obtain ⟨h1, h2, h3⟩ := hm.later hl
      exact playStep_CurrentInv f m _ hnow hm.seen hm.index (Or.inr ⟨h2, h1, h3⟩)
  · exact hm

theorem run_CurrentInv (f : FixedTimestepFunc) (ins : List Input) :
    ∀ m : Machine, (∀ i ∈ ins, i.now ≠ 0) → CurrentInv m → CurrentInv (run f m ins) := by
  induction ins with
  | nil => intro m _ hm; exact hm
  | cons i rest ih =>
    intro m hins hm
    rw [run_cons]
    exact ih _ (fun j hj => hins j (List.mem_cons_of_mem _ hj))
      (step_CurrentInv f m i (hins i (List.mem_cons_self _ _)) hm)

theorem filter_index_count (l : List Call) :
    (l.filter (fun c => decide (c.index ≠ 1))).length +
      (l.filter (fun c => decide (c.index = 1))).length = l.length := by
  induction l with
  | nil => rfl
  | cons c rest ih =>
    by_cases h : c.index = 1
    · rw [List.filter_cons_of_neg (by simp [h]), List.filter_cons_of_pos (by simp [h])]
      simp only [List.length_cons]
      omega
    · rw [List.filter_cons_of_pos (by simp [h]), List.filter_cons_of_neg (by simp [h])]
      simp only [List.length_cons]
      omega

theorem reachable_StatsInv (config : FixedTimestepConfig) (f : FixedTimestepFunc)
    (now : Time) (ins : List Input) (hnow : now ≠ 0) (hins : ∀ i ∈ ins, i.now ≠ 0) :
    StatsInv (run f (NewWithConfig config f now) ins) := by
  apply run_StatsInv f ins _ hins
  unfold NewWithConfig
  exact runLoop_StatsInv f _ now hnow rfl

theorem reachable_CurrentInv (config : FixedTimestepConfig) (f : FixedTimestepFunc)
    (now : Time) (ins : List Input) (hnow : now ≠ 0) (hins : ∀ i ∈ ins, i.now ≠ 0) :
    CurrentInv (run f (NewWithConfig config f now) ins) := by
  apply run_CurrentInv f ins _ hins
  unfold NewWithConfig
  refine runLoop_CurrentInv f _ now hnow ?_ (Nat.le_refl _)
  intro k c hk
  simp [created] at hk

/-- C18: in every run with fewer than `2 ^ 64` callback invocations and a clock that never
reads the zero instant, the `i`-th callback invocation of a Playing phase reads
`CurrentStats.Steps = i - 1`; at every blocking point of the loop `TotalStats.Steps` plus
the number of phases in which a step has run is the number of callback invocations, which
is `Step` unless the callback is blocked in `Update`; so `TotalStats.Steps` is strictly
less than the number of callback invocations once a step has run. -/
theorem stats_fold_only_later_steps (config : FixedTimestepConfig) (f : FixedTimestepFunc)
    (now : Time) (ins : List Input) (hnow : now ≠ 0) (hins : ∀ i ∈ ins, i.now ≠ 0)
    (hlen : (run f (NewWithConfig config f now) ins).calls.length < 2 ^ 64) :
    (∀ c ∈ (run f (NewWithConfig config f now) ins).calls,
      1 ≤ c.index ∧ ∃ s, c.seen.CurrentStats = some s ∧ s.Steps = c.index - 1) ∧
    (run f (NewWithConfig config f now) ins).ts.TotalStats.Steps +
        firstSteps (run f (NewWithConfig config f now) ins) =
      (run f (NewWithConfig config f now) ins).calls.length ∧
    ((run f (NewWithConfig config f now) ins).loc ≠ Loc.blocked →
      (run f (NewWithConfig config f now) ins).ts.TotalStats.Steps +
          firstSteps (run f (NewWithConfig config f now) ins) =
        (run f (NewWithConfig config f now) ins).ts.Step) ∧
    ((run f (NewWithConfig config f now) ins).calls ≠ [] →
      (run f (NewWithConfig config f now) ins).ts.TotalStats.Steps <
        (run f (NewWithConfig config f now) ins).calls.length) := by
  have hcur := reachable_CurrentInv config f now ins hnow hins
  have hst := reachable_StatsInv config f now ins hnow hins
  have hinv := reachable_Inv config f now ins
  generalize run f (NewWithConfig config f now) ins = m at *
  have hcount := filter_index_count m.calls
  have htotal : m.ts.TotalStats.Steps + firstSteps m = m.calls.length := by
    have h1 := hst.total
    unfold laterSteps at h1
    unfold firstSteps
    rw [h1, Nat.mod_eq_of_lt (by omega)]
    exact hcount
  refine ⟨?_, htotal, ?_, ?_⟩
  · intro c hc
    obtain ⟨k, hk⟩ := List.mem_iff_getElem?.mp hc
    obtain ⟨h1, h2, s, hs, hsteps⟩ := hcur.seen k c hk
    have hklt : k < m.calls.length := by
      by_contra hn
      rw [List.getElem?_eq_none_iff.mpr (Nat.le_of_not_lt hn)] at hk
      cases hk
    refine ⟨h1, s, hs, ?_⟩
    rw [hsteps]
    exact Nat.mod_eq_of_lt (by omega)
  · intro hb
    rw [htotal, hinv.stepCount hb, Nat.mod_eq_of_lt hlen]
  · intro hne
    cases hcalls : m.calls with
    | nil => exact absurd hcalls hne
    | cons c rest =>
      have h0 : m.calls[0]? = some c := by rw [hcalls]; simp
      obtain ⟨h1, h2, _⟩ := hcur.seen 0 c h0
      have hmem : c ∈ m.calls.filter (fun c => decide (c.index = 1)) := by
        rw [List.mem_filter]
        exact ⟨by rw [hcalls]; exact List.mem_cons_self _ _, by simp; omega⟩
      have hpos := List.length_pos_of_mem hmem
      rw [← hcalls]
      unfold firstSteps at htotal
      omega

/-- Witness of C18: two phases of two steps each; two steps were folded into
`TotalStats`, and the last invocation read one step in `CurrentStats`. -/
theorem stats_fold_only_later_steps_witness :
    (run quiet (NewWithConfig (playConfig none) quiet 1000)
      [Input.mk Stimulus.tick 2000, Input.mk (Stimulus.reconfig (playConfig none)) 3000,
       Input.mk Stimulus.tick 4000]).ts.TotalStats.Steps + 2 = 4 ∧
    (run quiet (NewWithConfig (playConfig none) quiet 1000)
      [Input.mk Stimulus.tick 2000, Input.mk (Stimulus.reconfig (playConfig none)) 3000,
       Input.mk Stimulus.tick 4000]).calls.map
        (fun c => (c.phase, c.index, c.seen.CurrentStats.map (fun s => s.Steps))) =
      [(1, 1, some 0), (1, 2, some 1), (2, 1, some 0), (2, 2, some 1)] := by
  have hins : ∀ i ∈ [Input.mk Stimulus.tick 2000,
      Input.mk (Stimulus.reconfig (playConfig none)) 3000, Input.mk Stimulus.tick 4000],
      i.now ≠ 0 := by
    intro i hi
    simp only [List.mem_cons, List.mem_singleton, List.not_mem_nil, or_false] at hi
    rcases hi with rfl | rfl | rfl <;> decide
  have h := (stats_fold_only_later_steps (playConfig none) quiet 1000 _ (by decide) hins
    (by decide!)).2.1
  have hfirst : firstSteps (run quiet (NewWithConfig (playConfig none) quiet 1000)
      [Input.mk Stimulus.tick 2000, Input.mk (Stimulus.reconfig (playConfig none)) 3000,
       Input.mk Stimulus.tick 4000]) = 2 := by decide!
  have hlen : (run quiet (NewWithConfig (playConfig none) quiet 1000)
      [Input.mk Stimulus.tick 2000, Input.mk (Stimulus.reconfig (playConfig none)) 3000,
       Input.mk Stimulus.tick 4000]).calls.length = 4 := by decide!
  rw [hfirst, hlen] at h
  exact ⟨h, by decide!⟩

end Fixedts
